import Mathlib

/-!
Verification of the Ball-Sort puzzle engine.

Shallow embedding of the rule engine, validator, interactive move engine and
breadth-first solver found in src/src/App.jsx. Tubes are lists of color codes
with the head of the list as the top of the tube, exactly as in the source
where index 0 of a tube array is the accessible ball. Boards are lists of
tubes. JavaScript strings become Lean strings, JavaScript numbers used as
counters become Nat (or Int where the source may decrement below zero), and
the wall clock read by Date.now() becomes an explicit function from the
iteration count to the elapsed milliseconds.
-/

namespace BallSort

/-- Color codes are the raw string tokens stored in tube arrays by the source. -/
abbrev Color := String

/-- A tube is a list of color codes, head = top (index 0 in the source). -/
abbrev Tube := List Color

/-- A board is the ordered list of all tubes. -/
abbrev Board := List Tube

/-- Keys of the COLORS table in the source: the closed set of color codes. -/
def validColors : List Color := ["LB", "DB", "LG", "DG", "PK", "RD", "OR", "PU", "GY"]

/-- Display name of a color code, from the COLORS table. The source indexes
COLORS[ball].name and is only ever called on valid codes; unknown codes map
to the empty string here. -/
def colorName (c : Color) : String :=
  if c = "LB" then "LIGHT_BLUE"
  else if c = "DB" then "DARK_BLUE"
  else if c = "LG" then "LIGHT_GREEN"
  else if c = "DG" then "DARK_GREEN"
  else if c = "PK" then "PINK"
  else if c = "RD" then "RED"
  else if c = "OR" then "ORANGE"
  else if c = "PU" then "PURPLE"
  else if c = "GY" then "GRAY"
  else ""

/-! ## Validator (validatePuzzle in the source)

The source accumulates per-color counts in a plain JavaScript object while
walking the tubes; object keys keep first-insertion order, so the count map
is embedded as an association list where a fresh color is appended at the
end and an existing color is bumped in place. -/

/-- One step of count accumulation: counts[ball] = (counts[ball] or 0) + 1. -/
def bumpCount (acc : List (Color × Nat)) (c : Color) : List (Color × Nat) :=
  if acc.any (fun p => p.1 = c) then
    acc.map (fun p => if p.1 = c then (p.1, p.2 + 1) else p)
  else
    acc ++ [(c, 1)]

/-- The count map produced by the two nested forEach loops of validatePuzzle. -/
def countsOf (tubes : Board) : List (Color × Nat) :=
  tubes.foldl (fun acc tube => tube.foldl bumpCount acc) []

structure ValidationResult where
  valid : Bool
  errors : List String
  ballCounts : List (Color × Nat)
  deriving Repr, DecidableEq

/-- Error message for a tube over capacity. -/
def capacityMsg (idx maxBalls : Nat) : String :=
  "Tube " ++ toString (idx + 1) ++ " exceeds maximum capacity of " ++ toString maxBalls

/-- Error message for a color whose total count is not exactly maxBalls. -/
def countMsg (c : Color) (count maxBalls : Nat) : String :=
  "Color " ++ c ++ " has " ++ toString count ++ " balls (expected " ++ toString maxBalls ++ ")"

/-- Error message for a color code outside the closed set. -/
def invalidColorMsg (c : Color) : String :=
  "Invalid color code: " ++ c

/-- Embedding of validatePuzzle. The source pushes capacity errors while
iterating tubes (interleaved with counting, which pushes no errors), then
count errors over Object.entries of the count map, then invalid-color errors
over Object.keys of the same map, and finally reports valid iff the error
list is empty. -/
def validatePuzzle (tubes : Board) (maxBalls : Nat) : ValidationResult :=
  let counts := countsOf tubes
  let capacityErrors :=
    (List.range tubes.length).flatMap (fun idx =>
      if maxBalls < (tubes.getD idx []).length then [capacityMsg idx maxBalls] else [])
  let countErrors :=
    counts.flatMap (fun p => if p.2 ≠ maxBalls then [countMsg p.1 p.2 maxBalls] else [])
  let invalidErrors :=
    counts.flatMap (fun p => if p.1 ∉ validColors then [invalidColorMsg p.1] else [])
  let errors := capacityErrors ++ countErrors ++ invalidErrors
  { valid := errors.isEmpty, errors := errors, ballCounts := counts }

/-! ## Puzzle model -/

/-- Embedding of isTubeSorted: empty tubes are not sorted, a tube of length
exactly maxBalls is sorted iff every ball equals the first, and partially
filled tubes are never sorted. -/
def isTubeSorted (tube : Tube) (maxBalls : Nat) : Bool :=
  if tube.length = 0 then false
  else if tube.length = maxBalls then tube.all (fun ball => ball = tube.headD "")
  else false

/-- Embedding of isSolved: every tube is sorted or empty. -/
def isSolved (tubes : Board) (maxBalls : Nat) : Bool :=
  tubes.all (fun tube => isTubeSorted tube maxBalls || tube.length = 0)

/-- Embedding of isEmptyTubeMoveNecessary: true iff no tube other than the
source is non-empty, below capacity, and shows the moved ball on top. -/
def isEmptyTubeMoveNecessary (tubes : Board) (fromTubeIdx : Nat) (ball : Color)
    (maxBalls : Nat) : Bool :=
  !(tubes.enum.any (fun p =>
    p.1 ≠ fromTubeIdx && p.2.length > 0 && p.2.length < maxBalls && p.2.headD "" = ball))

/-- Embedding of serializeTubes: tubes.map(t => t.join(",")).join("|"). -/
def serializeTubes (tubes : Board) : String :=
  String.intercalate "|" (tubes.map (fun tube => String.intercalate "," tube))

/-! ## Solver successor generation (getNextStates) -/

/-- Embedding of getDetailedMoveDescription. -/
def getDetailedMoveDescription (fromIdx toIdx : Nat) (ball : Color) (targetTube : Tube) :
    String :=
  let fromTubeLabel := "Tube " ++ toString (fromIdx + 1)
  let toTubeLabel := "Tube " ++ toString (toIdx + 1)
  if targetTube.length = 0 then
    "Move " ++ colorName ball ++ " from " ++ fromTubeLabel ++ " to empty " ++ toTubeLabel
  else
    "Move " ++ colorName ball ++ " from " ++ fromTubeLabel ++ " to " ++ toTubeLabel ++
      " (on top of " ++ colorName (targetTube.headD "") ++ ")"

structure NextState where
  nextTubes : Board
  moveDescription : String
  deriving Repr, DecidableEq

/-- Embedding of getNextStates: double loop over source index i and target
index j, skipping empty or sorted sources, skipping full or sorted targets,
and admitting the move iff it is color-legal and useful (non-empty target, or
an empty-tube move that is necessary). The new board copies the old one with
the source tail and the ball pushed on the target, exactly as the source
builds newTubes. -/
def getNextStates (tubes : Board) (maxBalls : Nat) : List NextState :=
  (List.range tubes.length).flatMap (fun i =>
    let fromTube := tubes.getD i []
    if fromTube.length = 0 || isTubeSorted fromTube maxBalls then []
    else
      let topBall := fromTube.headD ""
      (List.range tubes.length).flatMap (fun j =>
        if i = j then []
        else
          let toTube := tubes.getD j []
          if maxBalls ≤ toTube.length || isTubeSorted toTube maxBalls then []
          else
            let isValidMv := toTube.length = 0 || toTube.headD "" = topBall
            let isUsefulMv := toTube.length > 0 || isEmptyTubeMoveNecessary tubes i topBall maxBalls
            if isValidMv && isUsefulMv then
              [{ nextTubes := (tubes.set i fromTube.tail).set j (topBall :: toTube),
                 moveDescription := getDetailedMoveDescription i j topBall toTube }]
            else []))

/-! ## Breadth-first solver (solvePuzzleBFS) -/

structure SearchNode where
  tubes : Board
  path : List String
  deriving Repr, DecidableEq

/-- Statistics carried by the search. The source also records wall-clock
fields (startTime, endTime, searchDuration, statesPerSecond); those are
real-time floating-point values with no claim content and are outside the
shallow embedding. -/
structure SearchStats where
  totalStatesExplored : Nat
  maxQueueSize : Nat
  queueSizeHistory : List Nat
  reason : Option String
  deriving Repr, DecidableEq

/-- Result record of solvePuzzleBFS. Fields absent from a given return site in
the source are embedded as none. -/
structure SolveResult where
  solvable : Bool
  moves : List String
  error : Option String
  moveCount : Option Nat
  statesExplored : Option Nat
  validation : Option ValidationResult
  searchStats : Option SearchStats
  deriving Repr, DecidableEq

/-- Enqueue the successor states of a dequeued node: for each generated state
in order, if its serialization is not in the visited set, add it to visited
and push the node with the extended path. The visited set is embedded as the
list of serializations in insertion order (its size is the list length). -/
def enqueueAll (parentPath : List String) (nextStates : List NextState)
    (queue : List SearchNode) (visited : List String) :
    List SearchNode × List String :=
  nextStates.foldl
    (fun qv ns =>
      let serialized := serializeTubes ns.nextTubes
      if qv.2.contains serialized then qv
      else (qv.1 ++ [{ tubes := ns.nextTubes, path := parentPath ++ [ns.moveDescription] }],
            qv.2 ++ [serialized]))
    (queue, visited)

/-- Failure return shared by the exits after the while loop in the source:
reason falls back to exceeded-maximum-moves or no-solution-found depending on
the dequeue counter, error mirrors the reason, and the accumulated statistics
and visited-set size are returned. -/
def bfsFailure (maxMoves moveCount : Nat) (visited : List String) (maxQueueSize : Nat)
    (history : List Nat) (reason : Option String) : SolveResult :=
  let finalReason := reason.getD (if maxMoves ≤ moveCount then "Exceeded maximum moves" else "No solution found")
  { solvable := false, moves := [], error := some finalReason, moveCount := none,
    statesExplored := some visited.length, validation := none,
    searchStats := some { totalStatesExplored := moveCount, maxQueueSize := maxQueueSize,
                          queueSizeHistory := history, reason := some finalReason } }

/-- The while loop of solvePuzzleBFS. The loop runs while the queue is
non-empty and moveCount < maxMoves; the fuel argument equals
maxMoves - moveCount at every call, so fuel = 0 is exactly the exit of the
counter test and each iteration consumes one unit. Each iteration reads the
clock once (elapsed is indexed by the current moveCount), breaks on the time
limit before dequeuing, then dequeues, increments the counter, samples the
queue size every 10000 dequeues, updates the maximum queue size, tests for a
solved board, and otherwise enqueues the unseen successors. The source
variable searchStats.totalStatesExplored is incremented in lock step with
moveCount and always equals it. -/
def bfsLoop (maxBalls maxMoves timeLimit : Nat) (elapsed : Nat → Nat) :
    Nat → List SearchNode → List String → Nat → Nat → List Nat → SolveResult
  | 0, _, visited, moveCount, maxQueueSize, history =>
      bfsFailure maxMoves moveCount visited maxQueueSize history none
  | _ + 1, [], visited, moveCount, maxQueueSize, history =>
      bfsFailure maxMoves moveCount visited maxQueueSize history none
  | fuel + 1, node :: rest, visited, moveCount, maxQueueSize, history =>
      if timeLimit < elapsed moveCount then
        bfsFailure maxMoves moveCount visited maxQueueSize history (some "Time limit exceeded")
      else
        let moveCount1 := moveCount + 1
        let history1 := if moveCount1 % 10000 = 0 then history ++ [rest.length] else history
        let maxQueueSize1 := max maxQueueSize rest.length
        if isSolved node.tubes maxBalls then
          { solvable := true, moves := node.path, error := none,
            moveCount := some moveCount1, statesExplored := some visited.length,
            validation := none,
            searchStats := some { totalStatesExplored := moveCount1,
                                  maxQueueSize := maxQueueSize1,
                                  queueSizeHistory := history1,
                                  reason := some "Solution found" } }
        else
          let expanded := enqueueAll node.path (getNextStates node.tubes maxBalls) rest visited
          bfsLoop maxBalls maxMoves timeLimit elapsed fuel expanded.1 expanded.2
            moveCount1 maxQueueSize1 history1

/-- Embedding of solvePuzzleBFS. The source defaults are maxMoves = 25000000
and timeLimit = 600000 ms; both are ordinary parameters here. The validator
runs first and an invalid board returns immediately with the error list and
no statistics. -/
def solvePuzzleBFS (initialTubes : Board) (maxBalls maxMoves timeLimit : Nat)
    (elapsed : Nat → Nat) : SolveResult :=
  let validation := validatePuzzle initialTubes maxBalls
  if !validation.valid then
    { solvable := false, moves := [], error := some "Invalid puzzle state:",
      moveCount := none, statesExplored := none, validation := some validation,
      searchStats := none }
  else
    bfsLoop maxBalls maxMoves timeLimit elapsed maxMoves
      [{ tubes := initialTubes, path := [] }] [serializeTubes initialTubes] 0 1 []

/-! ## Interactive move engine -/

/-- Embedding of the isValidMove closure of the game component: false when
source equals target, the source tube is empty, or the target tube is at or
above capacity; otherwise true iff the target is empty or its top matches the
moved ball. -/
def isValidMove (tubes : Board) (fromTube toTube : Nat) (maxBalls : Nat) : Bool :=
  if fromTube = toTube then false
  else if (tubes.getD fromTube []).length = 0 then false
  else if maxBalls ≤ (tubes.getD toTube []).length then false
  else
    let ballToMove := (tubes.getD fromTube []).headD ""
    (tubes.getD toTube []).length = 0 || (tubes.getD toTube []).headD "" = ballToMove

/-- A move recorded in the history: the source pushes objects of shape
(from, to, ball). -/
structure RecordedMove where
  fromTube : Nat
  toTube : Nat
  ball : Color
  deriving Repr, DecidableEq

/-- The React state owned by the game component that the move engine touches. -/
structure Session where
  tubes : Board
  moveCount : Int
  moveHistory : List RecordedMove
  redoStack : List RecordedMove
  isComplete : Bool
  deriving Repr, DecidableEq

/-- Embedding of makeMove. On an illegal request the source shows transient
feedback and returns false with no state change; otherwise it pops the source
top, pushes it on the target (reading the target from the array already
updated at the source index, which is the same tube since the indices
differ), appends to the history, resets the redo stack, bumps the counter,
and recomputes the completion flag from the new board. -/
def makeMove (maxBalls : Nat) (s : Session) (fromTube toTube : Nat) : Bool × Session :=
  if !(isValidMove s.tubes fromTube toTube maxBalls) then
    (false, s)
  else
    let ball := (s.tubes.getD fromTube []).headD ""
    let t1 := s.tubes.set fromTube (s.tubes.getD fromTube []).tail
    let newTubes := t1.set toTube (ball :: t1.getD toTube [])
    (true, { tubes := newTubes,
             moveCount := s.moveCount + 1,
             moveHistory := s.moveHistory ++ [{ fromTube := fromTube, toTube := toTube, ball := ball }],
             redoStack := [],
             isComplete := isSolved newTubes maxBalls })

/-- Embedding of undo: no-op on empty history, otherwise pop the ball from
the recorded target top, push it back on the recorded source, decrement the
counter, drop the last history entry, push the record on the redo stack, and
recompute the completion flag. -/
def undo (maxBalls : Nat) (s : Session) : Session :=
  match s.moveHistory with
  | [] => s
  | _ :: _ =>
    let lastMove := s.moveHistory.getLastD { fromTube := 0, toTube := 0, ball := "" }
    let ball := (s.tubes.getD lastMove.toTube []).headD ""
    let t1 := s.tubes.set lastMove.toTube (s.tubes.getD lastMove.toTube []).tail
    let newTubes := t1.set lastMove.fromTube (ball :: t1.getD lastMove.fromTube [])
    { tubes := newTubes,
      moveCount := s.moveCount - 1,
      moveHistory := s.moveHistory.dropLast,
      redoStack := s.redoStack ++ [lastMove],
      isComplete := isSolved newTubes maxBalls }

/-- Embedding of redo: no-op on an empty redo stack, otherwise re-apply the
most recently undone move through makeMove. React batches the two queued
redo-stack updates of the handler in order: makeMove resets the stack (when
it accepts), then the functional update of redo drops the last entry of that
result. -/
def redo (maxBalls : Nat) (s : Session) : Session :=
  match s.redoStack with
  | [] => s
  | _ :: _ =>
    let move := s.redoStack.getLastD { fromTube := 0, toTube := 0, ball := "" }
    let s1 := (makeMove maxBalls s move.fromTube move.toTube).2
    { s1 with redoStack := s1.redoStack.dropLast }

/-! ## Helper lemmas on list access and update -/

theorem getD_eq_getElem (l : Board) (i : Nat) (h : i < l.length) : l.getD i [] = l[i] := by
  rw [List.getD_eq_getElem?_getD, List.getElem?_eq_getElem h, Option.getD_some]

theorem getD_eq_nil_of_le (l : Board) (i : Nat) (h : l.length ≤ i) : l.getD i [] = [] := by
  rw [List.getD_eq_getElem?_getD, List.getElem?_eq_none h, Option.getD_none]

theorem getD_set_self (l : Board) (i : Nat) (x : Tube) (h : i < l.length) :
    (l.set i x).getD i [] = x := by
  rw [List.getD_eq_getElem?_getD, List.getElem?_set_self h, Option.getD_some]

theorem getD_set_ne (l : Board) (i j : Nat) (x : Tube) (h : i ≠ j) :
    (l.set i x).getD j [] = l.getD j [] := by
  rw [List.getD_eq_getElem?_getD, List.getElem?_set_ne h, List.getD_eq_getElem?_getD]

theorem set_getD_self (l : Board) (i : Nat) (h : i < l.length) :
    l.set i (l.getD i []) = l := by
  rw [getD_eq_getElem l i h]
  apply List.ext_getElem?
  intro j
  by_cases hij : i = j
  · subst hij
    rw [List.getElem?_set_self h, List.getElem?_eq_getElem h]
  · rw [List.getElem?_set_ne hij]

theorem length_getD_le (tubes : Board) (maxBalls : Nat)
    (h : ∀ t ∈ tubes, t.length ≤ maxBalls) (i : Nat) :
    (tubes.getD i []).length ≤ maxBalls := by
  by_cases hi : i < tubes.length
  · rw [getD_eq_getElem tubes i hi]
    exact h _ (List.getElem_mem hi)
  · rw [getD_eq_nil_of_le tubes i (by omega)]
    exact Nat.zero_le _

theorem getD_ne_nil_lt (tubes : Board) (i : Nat) (h : tubes.getD i [] ≠ []) :
    i < tubes.length := by
  by_contra hlt
  exact h (getD_eq_nil_of_le tubes i (by omega))

/-! ## C4: characterization of the move legality predicate -/

/-- C4: for every board (no tube above capacity, as the data model requires)
and in-range tube indices, the legality predicate is false when from = to,
false when the source tube is empty, false when the target tube is at
capacity, and otherwise true exactly when the target is empty or its top
color equals the top color of the source. -/
theorem move_legality_characterization (tubes : Board) (fromTube toTube maxBalls : Nat)
    (hWF : ∀ t ∈ tubes, t.length ≤ maxBalls)
    (hf : fromTube < tubes.length) (ht : toTube < tubes.length) :
    isValidMove tubes fromTube toTube maxBalls = true ↔
      (fromTube ≠ toTube ∧ tubes.getD fromTube [] ≠ [] ∧
       (tubes.getD toTube []).length ≠ maxBalls ∧
       (tubes.getD toTube [] = [] ∨
        (tubes.getD toTube []).headD "" = (tubes.getD fromTube []).headD "")) := by
  have hlen := length_getD_le tubes maxBalls hWF toTube
  unfold isValidMove
  split_ifs with h1 h2 h3
  · simp [h1]
  · constructor
    · intro h
      exact absurd h (by simp)
    · rintro ⟨-, hsrc, -, -⟩
      exact absurd (List.length_eq_zero.mp h2) hsrc
  · constructor
    · intro h
      exact absurd h (by simp)
    · rintro ⟨-, -, hcap, -⟩
      exact absurd (Nat.le_antisymm hlen h3) hcap
  · simp only [Bool.or_eq_true, decide_eq_true_eq]
    constructor
    · rintro (hempty | htop)
      · exact ⟨h1, fun hn => h2 (by rw [hn]; rfl),
          fun hc => h3 (le_of_eq hc.symm), Or.inl (List.length_eq_zero.mp hempty)⟩
      · exact ⟨h1, fun hn => h2 (by rw [hn]; rfl),
          fun hc => h3 (le_of_eq hc.symm), Or.inr htop⟩
    · rintro ⟨-, -, -, (hempty | htop)⟩
      · exact Or.inl (by rw [hempty]; rfl)
      · exact Or.inr htop

/-- Witness for C4 on a concrete board: moving from a red tube onto an empty
tube with room is legal, and the characterization agrees. -/
theorem move_legality_characterization_witness :
    ((∀ t ∈ ([["RD"], []] : Board), t.length ≤ 1) ∧ 0 < 2 ∧ 1 < 2) ∧
    (isValidMove [["RD"], []] 0 1 1 = true ↔
      ((0 : Nat) ≠ 1 ∧ ([["RD"], []] : Board).getD 0 [] ≠ [] ∧
       (([["RD"], []] : Board).getD 1 []).length ≠ 1 ∧
       (([["RD"], []] : Board).getD 1 [] = [] ∨
        (([["RD"], []] : Board).getD 1 []).headD "" = (([["RD"], []] : Board).getD 0 []).headD ""))) :=
  ⟨⟨by decide, by decide, by decide⟩,
   move_legality_characterization [["RD"], []] 0 1 1 (by decide) (by decide) (by decide)⟩

/-! ## Unfolding helpers for the interactive engine -/

theorem makeMove_rejected (maxBalls : Nat) (s : Session) (fromTube toTube : Nat)
    (h : isValidMove s.tubes fromTube toTube maxBalls = false) :
    makeMove maxBalls s fromTube toTube = (false, s) := by
  unfold makeMove
  rw [h]
  rfl

theorem makeMove_valid_eq (maxBalls : Nat) (s : Session) (fromTube toTube : Nat)
    (h : isValidMove s.tubes fromTube toTube maxBalls = true) :
    makeMove maxBalls s fromTube toTube =
      (true,
       { tubes := (s.tubes.set fromTube (s.tubes.getD fromTube []).tail).set toTube
            ((s.tubes.getD fromTube []).headD "" ::
              (s.tubes.set fromTube (s.tubes.getD fromTube []).tail).getD toTube []),
         moveCount := s.moveCount + 1,
         moveHistory := s.moveHistory ++
           [{ fromTube := fromTube, toTube := toTube, ball := (s.tubes.getD fromTube []).headD "" }],
         redoStack := [],
         isComplete := isSolved
           ((s.tubes.set fromTube (s.tubes.getD fromTube []).tail).set toTube
             ((s.tubes.getD fromTube []).headD "" ::
               (s.tubes.set fromTube (s.tubes.getD fromTube []).tail).getD toTube []))
           maxBalls }) := by
  unfold makeMove
  rw [h]
  rfl

theorem undo_cons (maxBalls : Nat) (s : Session) (m : RecordedMove)
    (rest : List RecordedMove) (h : s.moveHistory = m :: rest) :
    undo maxBalls s =
      (let lastMove := s.moveHistory.getLastD { fromTube := 0, toTube := 0, ball := "" }
       let ball := (s.tubes.getD lastMove.toTube []).headD ""
       let t1 := s.tubes.set lastMove.toTube (s.tubes.getD lastMove.toTube []).tail
       let newTubes := t1.set lastMove.fromTube (ball :: t1.getD lastMove.fromTube [])
       { tubes := newTubes,
         moveCount := s.moveCount - 1,
         moveHistory := s.moveHistory.dropLast,
         redoStack := s.redoStack ++ [lastMove],
         isComplete := isSolved newTubes maxBalls }) := by
  unfold undo
  rw [h]

theorem redo_cons (maxBalls : Nat) (s : Session) (m : RecordedMove)
    (rest : List RecordedMove) (h : s.redoStack = m :: rest) :
    redo maxBalls s =
      (let move := s.redoStack.getLastD { fromTube := 0, toTube := 0, ball := "" }
       let s1 := (makeMove maxBalls s move.fromTube move.toTube).2
       { s1 with redoStack := s1.redoStack.dropLast }) := by
  unfold redo
  rw [h]

/-! ## C7: a rejected move leaves the session untouched -/

/-- C7: when the legality predicate rejects the requested move, makeMove
returns not-accepted together with the unchanged session, so the board, the
move counter, the history, the redo stack and the completion flag are all
exactly as before, and the function is total. -/
theorem rejected_move_leaves_session_unchanged (maxBalls : Nat) (s : Session)
    (fromTube toTube : Nat) (h : isValidMove s.tubes fromTube toTube maxBalls = false) :
    makeMove maxBalls s fromTube toTube = (false, s) :=
  makeMove_rejected maxBalls s fromTube toTube h

/-- Concrete session used by the interactive-engine witnesses: one red ball
in the first of two tubes, capacity one, one entry on the redo stack. -/
def sampleSession : Session :=
  { tubes := [["RD"], []], moveCount := 0, moveHistory := [],
    redoStack := [{ fromTube := 0, toTube := 1, ball := "RD" }], isComplete := false }

/-- Witness for C7: moving a tube onto itself is rejected and the session is
returned unchanged. -/
theorem rejected_move_leaves_session_unchanged_witness :
    isValidMove sampleSession.tubes 0 0 1 = false ∧
    makeMove 1 sampleSession 0 0 = (false, sampleSession) :=
  ⟨by decide, rejected_move_leaves_session_unchanged 1 sampleSession 0 0 (by decide)⟩

/-! ## C9: every accepted move clears the redo stack -/

/-- C9: an accepted makeMove always leaves an empty redo stack; the
re-application inside redo also ends with an empty redo stack when its inner
makeMove accepts (the functional queue update drops the last entry of the
already cleared stack); and redo on an empty redo stack is a no-op, so only
the single most recently undone move can ever be redone. -/
theorem accepted_move_clears_redo_stack (maxBalls : Nat) (s : Session)
    (fromTube toTube : Nat) :
    ((makeMove maxBalls s fromTube toTube).1 = true →
      (makeMove maxBalls s fromTube toTube).2.redoStack = []) ∧
    (s.redoStack ≠ [] →
      (makeMove maxBalls s (s.redoStack.getLastD { fromTube := 0, toTube := 0, ball := "" }).fromTube
        (s.redoStack.getLastD { fromTube := 0, toTube := 0, ball := "" }).toTube).1 = true →
      (redo maxBalls s).redoStack = []) ∧
    (s.redoStack = [] → redo maxBalls s = s) := by
  refine ⟨?_, ?_, ?_⟩
  · intro hacc
    cases hc : isValidMove s.tubes fromTube toTube maxBalls with
    | false =>
        rw [makeMove_rejected maxBalls s fromTube toTube hc] at hacc
        simp at hacc
    | true =>
        rw [makeMove_valid_eq maxBalls s fromTube toTube hc]
  · intro hne hacc
    obtain ⟨m, rest, hred⟩ := List.exists_cons_of_ne_nil hne
    rw [redo_cons maxBalls s m rest hred]
    cases hc : isValidMove s.tubes
        (s.redoStack.getLastD { fromTube := 0, toTube := 0, ball := "" }).fromTube
        (s.redoStack.getLastD { fromTube := 0, toTube := 0, ball := "" }).toTube maxBalls with
    | false =>
        rw [makeMove_rejected maxBalls s _ _ hc] at hacc
        simp at hacc
    | true =>
        simp only [makeMove_valid_eq maxBalls s _ _ hc]
        rfl
  · intro hnil
    unfold redo
    rw [hnil]

/-- Witness for C9 on a concrete session with a pending redo entry: the
accepted move clears the stack, and a redo whose inner re-application accepts
also ends with an empty stack. -/
theorem accepted_move_clears_redo_stack_witness :
    (makeMove 1 sampleSession 0 1).1 = true ∧
    (makeMove 1 sampleSession 0 1).2.redoStack = [] ∧
    sampleSession.redoStack ≠ [] ∧
    (redo 1 sampleSession).redoStack = [] :=
  ⟨by decide,
   (accepted_move_clears_redo_stack 1 sampleSession 0 1).1 (by decide),
   by decide,
   (accepted_move_clears_redo_stack 1 sampleSession 0 1).2.1 (by decide) (by decide)⟩

/-! ## C8: undo inverts an accepted move, redo restores it -/

theorem isValidMove_sound (tubes : Board) (fromTube toTube maxBalls : Nat)
    (h : isValidMove tubes fromTube toTube maxBalls = true) :
    fromTube ≠ toTube ∧ tubes.getD fromTube [] ≠ [] ∧
      (tubes.getD toTube []).length < maxBalls := by
  unfold isValidMove at h
  split_ifs at h with h1 h2 h3
  exact ⟨h1, fun hn => h2 (by rw [hn]; rfl), by omega⟩

/-- Popping the moved ball from the target and pushing it back on the source
restores the pre-move board. -/
theorem move_then_unmove (T : Board) (f t : Nat) (hft : f ≠ t)
    (hsrc : T.getD f [] ≠ []) (ht : t < T.length) :
    (((T.set f (T.getD f []).tail).set t
        ((T.getD f []).headD "" :: (T.set f (T.getD f []).tail).getD t [])).set t
       (((T.set f (T.getD f []).tail).set t
          ((T.getD f []).headD "" :: (T.set f (T.getD f []).tail).getD t [])).getD t []).tail).set f
      ((((T.set f (T.getD f []).tail).set t
          ((T.getD f []).headD "" :: (T.set f (T.getD f []).tail).getD t [])).getD t []).headD "" ::
        ((((T.set f (T.getD f []).tail).set t
            ((T.getD f []).headD "" :: (T.set f (T.getD f []).tail).getD t [])).set t
           (((T.set f (T.getD f []).tail).set t
              ((T.getD f []).headD "" :: (T.set f (T.getD f []).tail).getD t [])).getD t []).tail).getD f []))
      = T := by
  obtain ⟨ball, rest, hbr⟩ := List.exists_cons_of_ne_nil hsrc
  have hf : f < T.length := getD_ne_nil_lt T f hsrc
  rw [hbr, List.tail_cons, List.headD_cons]
  rw [getD_set_ne _ f t _ hft]
  have hlt : t < (T.set f rest).length := by rw [List.length_set]; exact ht
  rw [getD_set_self _ t _ hlt, List.tail_cons, List.headD_cons]
  rw [List.set_set]
  rw [getD_set_ne _ t f _ (Ne.symm hft)]
  rw [getD_set_self _ f _ hf]
  rw [List.set_comm _ _ _ (Ne.symm hft)]
  rw [List.set_set, ← hbr, set_getD_self _ f hf, set_getD_self _ t ht]

/-- C8: undoing an accepted move restores the original board, move counter
and history, a redo right after that undo reproduces the post-move board
exactly, and undo with empty history as well as redo with empty redo stack
are no-ops. -/
theorem undo_redo_inverse (maxBalls : Nat) (s : Session) (fromTube toTube : Nat)
    (hvalid : isValidMove s.tubes fromTube toTube maxBalls = true)
    (ht : toTube < s.tubes.length) :
    ((undo maxBalls (makeMove maxBalls s fromTube toTube).2).tubes = s.tubes ∧
     (undo maxBalls (makeMove maxBalls s fromTube toTube).2).moveCount = s.moveCount ∧
     (undo maxBalls (makeMove maxBalls s fromTube toTube).2).moveHistory = s.moveHistory ∧
     (redo maxBalls (undo maxBalls (makeMove maxBalls s fromTube toTube).2)).tubes =
       (makeMove maxBalls s fromTube toTube).2.tubes) ∧
    (∀ s2 : Session, s2.moveHistory = [] → undo maxBalls s2 = s2) ∧
    (∀ s2 : Session, s2.redoStack = [] → redo maxBalls s2 = s2) := by
  obtain ⟨hft, hsrc, -⟩ := isValidMove_sound s.tubes fromTube toTube maxBalls hvalid
  rw [makeMove_valid_eq maxBalls s fromTube toTube hvalid]
  set m : RecordedMove :=
    { fromTube := fromTube, toTube := toTube, ball := (s.tubes.getD fromTube []).headD "" } with hm
  set B1 : Board := (s.tubes.set fromTube (s.tubes.getD fromTube []).tail).set toTube
    ((s.tubes.getD fromTube []).headD "" ::
      (s.tubes.set fromTube (s.tubes.getD fromTube []).tail).getD toTube []) with hB1
  set s1 : Session :=
    { tubes := B1, moveCount := s.moveCount + 1, moveHistory := s.moveHistory ++ [m],
      redoStack := [], isComplete := isSolved B1 maxBalls } with hs1
  have hhist : s1.moveHistory = (s.moveHistory ++ [m]).headD m :: ((s.moveHistory ++ [m]).tail) := by
    rw [hs1]
    cases s.moveHistory <;> rfl
  have hu := undo_cons maxBalls s1 _ _ hhist
  have hulast : s1.moveHistory.getLastD { fromTube := 0, toTube := 0, ball := "" } = m := by
    rw [hs1]
    exact List.getLastD_concat _ _ _
  rw [hulast] at hu
  have hutubes : (undo maxBalls s1).tubes = s.tubes := by
    rw [hu]
    exact move_then_unmove s.tubes fromTube toTube hft hsrc ht
  refine ⟨⟨hutubes, ?_, ?_, ?_⟩, ?_, ?_⟩
  · rw [hu]
    simp [hs1]
  · rw [hu]
    simp [hs1, List.dropLast_concat]
  · have hured : (undo maxBalls s1).redoStack = [m] := by
      rw [hu]
      simp [hs1]
    have hr := redo_cons maxBalls (undo maxBalls s1) m [] hured
    rw [hr]
    simp only [hured, List.getLastD_concat]
    have hmove : ([m].getLastD { fromTube := 0, toTube := 0, ball := "" }) = m := rfl
    rw [hmove]
    have hvalid2 : isValidMove (undo maxBalls s1).tubes m.fromTube m.toTube maxBalls = true := by
      rw [hutubes, hm]
      exact hvalid
    rw [makeMove_valid_eq maxBalls (undo maxBalls s1) m.fromTube m.toTube hvalid2]
    simp only [hutubes, hm]
  · intro s2 h2
    unfold undo
    rw [h2]
  · intro s2 h2
    unfold redo
    rw [h2]

/-- Witness for C8: a legal concrete move followed by undo restores the
session board, counter and history, and a redo then reproduces the post-move
board. -/
theorem undo_redo_inverse_witness :
    isValidMove sampleSession.tubes 0 1 1 = true ∧ 1 < sampleSession.tubes.length ∧
    ((undo 1 (makeMove 1 sampleSession 0 1).2).tubes = sampleSession.tubes ∧
     (undo 1 (makeMove 1 sampleSession 0 1).2).moveCount = sampleSession.moveCount ∧
     (undo 1 (makeMove 1 sampleSession 0 1).2).moveHistory = sampleSession.moveHistory ∧
     (redo 1 (undo 1 (makeMove 1 sampleSession 0 1).2)).tubes =
       (makeMove 1 sampleSession 0 1).2.tubes) :=
  ⟨by decide, by decide,
   (undo_redo_inverse 1 sampleSession 0 1 (by decide) (by decide)).1⟩

/-! ## C2: characterization of solver successor generation -/

/-- A tube is monochrome-and-full in the sense of the specification: length
exactly the capacity and every ball equal to the top one. -/
def isCompleteTube (t : Tube) (maxBalls : Nat) : Prop :=
  t.length = maxBalls ∧ ∀ b ∈ t, b = t.headD ""

instance (t : Tube) (maxBalls : Nat) : Decidable (isCompleteTube t maxBalls) := by
  unfold isCompleteTube
  infer_instance

theorem isTubeSorted_iff (t : Tube) (maxBalls : Nat) :
    isTubeSorted t maxBalls = true ↔ t ≠ [] ∧ isCompleteTube t maxBalls := by
  unfold isTubeSorted isCompleteTube
  split_ifs with h1 h2
  · simp only [Bool.false_eq_true, false_iff]
    intro h
    exact h.1 (List.length_eq_zero.mp h1)
  · rw [List.all_eq_true]
    constructor
    · intro h
      refine ⟨fun hn => h1 (by rw [hn]; rfl), h2, fun b hb => ?_⟩
      have := h b hb
      simpa using this
    · rintro ⟨-, -, h⟩ b hb
      simpa using h b hb
  · simp only [Bool.false_eq_true, false_iff]
    rintro ⟨-, hlen, -⟩
    exact h2 hlen

theorem isEmptyTubeMoveNecessary_iff (tubes : Board) (i : Nat) (ball : Color)
    (maxBalls : Nat) :
    isEmptyTubeMoveNecessary tubes i ball maxBalls = true ↔
      ∀ k, k < tubes.length → k ≠ i →
        ¬(tubes.getD k [] ≠ [] ∧ (tubes.getD k []).length < maxBalls ∧
          (tubes.getD k []).headD "" = ball) := by
  unfold isEmptyTubeMoveNecessary
  rw [Bool.not_eq_true', List.any_eq_false]
  constructor
  · intro h k hk hki
    have hmem : (k, tubes.getD k []) ∈ tubes.enum := by
      rw [List.mem_enum_iff_getElem?, getD_eq_getElem tubes k hk, List.getElem?_eq_getElem hk]
    have hnot := h _ hmem
    rintro ⟨hne, hlt, htop⟩
    apply hnot
    simp only [Bool.and_eq_true, decide_eq_true_eq]
    refine ⟨⟨⟨hki, ?_⟩, hlt⟩, htop⟩
    cases hgd : tubes.getD k [] with
    | nil => exact absurd hgd hne
    | cons a as => simp
  · intro h p hp
    rw [List.mem_enum_iff_getElem?] at hp
    have hk : p.1 < tubes.length := by
      by_contra hc
      rw [List.getElem?_eq_none (by omega)] at hp
      exact Option.noConfusion hp
    have hpd : tubes.getD p.1 [] = p.2 := by
      rw [List.getD_eq_getElem?_getD, hp, Option.getD_some]
    intro hcontra
    simp only [Bool.and_eq_true, decide_eq_true_eq] at hcontra
    obtain ⟨⟨⟨hki, hpos⟩, hlt⟩, htop⟩ := hcontra
    refine h p.1 hk hki ⟨?_, by rw [hpd]; exact hlt, by rw [hpd]; exact htop⟩
    rw [hpd]
    exact List.length_pos.mp hpos

/-- The pairs (source, target) admitted by the double loop of getNextStates,
collected in loop order. -/
def candidatePairs (tubes : Board) (maxBalls : Nat) : List (Nat × Nat) :=
  (List.range tubes.length).flatMap (fun i =>
    let fromTube := tubes.getD i []
    if fromTube.length = 0 || isTubeSorted fromTube maxBalls then []
    else
      let topBall := fromTube.headD ""
      (List.range tubes.length).flatMap (fun j =>
        if i = j then []
        else
          let toTube := tubes.getD j []
          if maxBalls ≤ toTube.length || isTubeSorted toTube maxBalls then []
          else
            let isValidMv := toTube.length = 0 || toTube.headD "" = topBall
            let isUsefulMv := toTube.length > 0 || isEmptyTubeMoveNecessary tubes i topBall maxBalls
            if isValidMv && isUsefulMv then [(i, j)] else []))

/-- The successor state built for an admitted pair, as getNextStates builds
it from the dequeued board. -/
def mkNextState (tubes : Board) (m : Nat × Nat) : NextState :=
  { nextTubes := (tubes.set m.1 (tubes.getD m.1 []).tail).set m.2
      ((tubes.getD m.1 []).headD "" :: tubes.getD m.2 []),
    moveDescription := getDetailedMoveDescription m.1 m.2
      ((tubes.getD m.1 []).headD "") (tubes.getD m.2 []) }

theorem getNextStates_eq_map (tubes : Board) (maxBalls : Nat) :
    getNextStates tubes maxBalls = (candidatePairs tubes maxBalls).map (mkNextState tubes) := by
  unfold getNextStates candidatePairs
  rw [List.map_flatMap]
  refine congrArg _ (funext fun i => ?_)
  try simp only []
  by_cases h1 : ((tubes.getD i []).length = 0 || isTubeSorted (tubes.getD i []) maxBalls) = true
  · rw [if_pos h1, if_pos h1]
    rfl
  · rw [if_neg h1, if_neg h1, List.map_flatMap]
    refine congrArg _ (funext fun j => ?_)
    try simp only []
    by_cases h2 : i = j
    · rw [if_pos h2, if_pos h2]
      rfl
    · rw [if_neg h2, if_neg h2]
      by_cases h3 : (maxBalls ≤ (tubes.getD j []).length ||
          isTubeSorted (tubes.getD j []) maxBalls) = true
      · rw [if_pos h3, if_pos h3]
        rfl
      · rw [if_neg h3, if_neg h3]
        by_cases h4 : (((tubes.getD j []).length = 0 ||
              (tubes.getD j []).headD "" = (tubes.getD i []).headD "") &&
            ((tubes.getD j []).length > 0 ||
              isEmptyTubeMoveNecessary tubes i ((tubes.getD i []).headD "") maxBalls)) = true
        · rw [if_pos h4, if_pos h4]
          rfl
        · rw [if_neg h4, if_neg h4]
          rfl

theorem mem_candidatePairs_bool (tubes : Board) (maxBalls i j : Nat) :
    (i, j) ∈ candidatePairs tubes maxBalls ↔
      i < tubes.length ∧ j < tubes.length ∧
      ((tubes.getD i []).length = 0 || isTubeSorted (tubes.getD i []) maxBalls) = false ∧
      i ≠ j ∧
      (maxBalls ≤ (tubes.getD j []).length || isTubeSorted (tubes.getD j []) maxBalls) = false ∧
      (((tubes.getD j []).length = 0 || (tubes.getD j []).headD "" = (tubes.getD i []).headD "") &&
       ((tubes.getD j []).length > 0 ||
         isEmptyTubeMoveNecessary tubes i ((tubes.getD i []).headD "") maxBalls)) = true := by
  unfold candidatePairs
  simp only [List.mem_flatMap, List.mem_range]
  constructor
  · rintro ⟨i1, hi1, hrest⟩
    split_ifs at hrest with hsrc
    · simp at hrest
    · simp only [List.mem_flatMap, List.mem_range] at hrest
      obtain ⟨j1, hj1, hinner⟩ := hrest
      split_ifs at hinner with hij hdst hval
      · simp at hinner
      · simp at hinner
      · simp only [List.mem_singleton, Prod.mk.injEq] at hinner
        obtain ⟨rfl, rfl⟩ := hinner
        exact ⟨hi1, hj1, Bool.not_eq_true _ ▸ eq_false_of_ne_true hsrc, hij,
          Bool.not_eq_true _ ▸ eq_false_of_ne_true hdst, hval⟩
      · simp at hinner
  · rintro ⟨hi, hj, hsrc, hij, hdst, hval⟩
    refine ⟨i, hi, ?_⟩
    rw [if_neg (by rw [hsrc]; simp)]
    simp only [List.mem_flatMap, List.mem_range]
    refine ⟨j, hj, ?_⟩
    rw [if_neg hij, if_neg (by rw [hdst]; simp), if_pos hval]
    exact List.mem_singleton.mpr rfl

/-- C2: a move from tube i to tube j is generated for a dequeued board (all
tube lengths within capacity) exactly when the source is non-empty and not
monochrome-and-full, the target is a different tube, not at capacity and not
monochrome-and-full, the move is color-legal, and an empty target is only
used when no other tube could receive the moved ball; and the generated
states are precisely these moves applied in loop order. -/
theorem successor_generation_characterization (tubes : Board) (maxBalls i j : Nat)
    (hWF : ∀ t ∈ tubes, t.length ≤ maxBalls) :
    ((i, j) ∈ candidatePairs tubes maxBalls ↔
      i < tubes.length ∧ j < tubes.length ∧
      tubes.getD i [] ≠ [] ∧ ¬ isCompleteTube (tubes.getD i []) maxBalls ∧
      j ≠ i ∧
      (tubes.getD j []).length ≠ maxBalls ∧ ¬ isCompleteTube (tubes.getD j []) maxBalls ∧
      (tubes.getD j [] = [] ∨
        (tubes.getD j []).headD "" = (tubes.getD i []).headD "") ∧
      (tubes.getD j [] = [] →
        ∀ k, k < tubes.length → k ≠ i →
          ¬(tubes.getD k [] ≠ [] ∧ (tubes.getD k []).length < maxBalls ∧
            (tubes.getD k []).headD "" = (tubes.getD i []).headD ""))) ∧
    getNextStates tubes maxBalls = (candidatePairs tubes maxBalls).map (mkNextState tubes) := by
  refine ⟨?_, getNextStates_eq_map tubes maxBalls⟩
  rw [mem_candidatePairs_bool]
  have hdlen : (tubes.getD j []).length ≤ maxBalls := length_getD_le tubes maxBalls hWF j
  constructor
  · rintro ⟨hi, hj, hsrc, hij, hdst, hval⟩
    rw [Bool.or_eq_false_iff, decide_eq_false_iff_not] at hsrc hdst
    obtain ⟨hlen0, hsort⟩ := hsrc
    obtain ⟨hcap, hsort2⟩ := hdst
    rw [Bool.and_eq_true, Bool.or_eq_true, Bool.or_eq_true] at hval
    obtain ⟨hv, hu⟩ := hval
    have hsrcne : tubes.getD i [] ≠ [] := fun hn => hlen0 (by rw [hn]; rfl)
    refine ⟨hi, hj, hsrcne, ?_, fun hn => hij hn.symm, ?_, ?_, ?_, ?_⟩
    · intro hcomp
      have hst : isTubeSorted (tubes.getD i []) maxBalls = true :=
        (isTubeSorted_iff _ _).mpr ⟨hsrcne, hcomp⟩
      rw [hsort] at hst
      exact Bool.false_ne_true hst
    · intro heq
      exact hcap (le_of_eq heq.symm)
    · intro hcomp
      have hdne : tubes.getD j [] ≠ [] := by
        intro hn
        rw [hn] at hcomp
        exact hcap (by rw [hn]; exact le_of_eq hcomp.1.symm)
      have hst : isTubeSorted (tubes.getD j []) maxBalls = true :=
        (isTubeSorted_iff _ _).mpr ⟨hdne, hcomp⟩
      rw [hsort2] at hst
      exact Bool.false_ne_true hst
    · rcases hv with hv | hv
      · exact Or.inl (List.length_eq_zero.mp (by simpa using hv))
      · exact Or.inr (by simpa using hv)
    · intro hempty
      rcases hu with hu | hu
      · rw [decide_eq_true_eq] at hu
        rw [hempty] at hu
        simp at hu
      · exact fun k hk hki => (isEmptyTubeMoveNecessary_iff tubes i _ maxBalls).mp hu k hk hki
  · rintro ⟨hi, hj, hsrcne, hncomp, hji, hcap, hncomp2, hval, huse⟩
    refine ⟨hi, hj, ?_, fun hn => hji hn.symm, ?_, ?_⟩
    · rw [Bool.or_eq_false_iff, decide_eq_false_iff_not]
      refine ⟨fun hn => hsrcne (List.length_eq_zero.mp hn), ?_⟩
      rw [Bool.eq_false_iff]
      intro hst
      obtain ⟨-, hcomp⟩ := (isTubeSorted_iff _ _).mp hst
      exact hncomp hcomp
    · rw [Bool.or_eq_false_iff, decide_eq_false_iff_not]
      refine ⟨fun hn => hcap (Nat.le_antisymm hdlen hn), ?_⟩
      rw [Bool.eq_false_iff]
      intro hst
      obtain ⟨-, hcomp⟩ := (isTubeSorted_iff _ _).mp hst
      exact hncomp2 hcomp
    · rw [Bool.and_eq_true, Bool.or_eq_true, Bool.or_eq_true]
      constructor
      · rcases hval with hval | hval
        · exact Or.inl (by rw [hval]; simp)
        · exact Or.inr (by simpa using hval)
      · by_cases hde : tubes.getD j [] = []
        · refine Or.inr ((isEmptyTubeMoveNecessary_iff tubes i _ maxBalls).mpr ?_)
          exact huse hde
        · refine Or.inl ?_
          rw [decide_eq_true_eq]
          cases hgd : tubes.getD j [] with
          | nil => exact absurd hgd hde
          | cons a as => simp [hgd]

/-- Witness for C2 on a concrete board: on [[RD], [RD], []] with capacity 2,
the consolidation move from tube 0 onto tube 1 is generated and satisfies the
characterization. -/
theorem successor_generation_characterization_witness :
    (∀ t ∈ ([["RD"], ["RD"], []] : Board), t.length ≤ 2) ∧
    (0, 1) ∈ candidatePairs [["RD"], ["RD"], []] 2 ∧
    getNextStates [["RD"], ["RD"], []] 2 =
      (candidatePairs [["RD"], ["RD"], []] 2).map (mkNextState [["RD"], ["RD"], []]) :=
  ⟨by decide,
   (successor_generation_characterization [["RD"], ["RD"], []] 2 0 1 (by decide)).1.mpr
     (by decide),
   (successor_generation_characterization [["RD"], ["RD"], []] 2 0 1 (by decide)).2⟩

/-! ## C6: moves preserve per-color ball counts -/

/-- Number of balls of a given color on the whole board. -/
def countColor (c : Color) (tubes : Board) : Nat :=
  (tubes.map (fun t => t.count c)).sum

theorem countColor_cons (c : Color) (t : Tube) (ts : Board) :
    countColor c (t :: ts) = t.count c + countColor c ts := by
  simp [countColor]

theorem countColor_set_general (tubes : Board) (i : Nat) (x : Tube) (c : Color)
    (h : i < tubes.length) :
    countColor c (tubes.set i x) + (tubes.getD i []).count c =
      countColor c tubes + x.count c := by
  induction tubes generalizing i with
  | nil => simp at h
  | cons hd tl ih =>
    cases i with
    | zero =>
        simp only [List.set, countColor_cons, List.getD_cons_zero]
        omega
    | succ n =>
        have hn : n < tl.length := by simpa using h
        have hrec := ih n hn
        simp only [List.set, countColor_cons, List.getD_cons_succ]
        omega

theorem makeMove_accepted_valid (maxBalls : Nat) (s : Session) (fromTube toTube : Nat)
    (h : (makeMove maxBalls s fromTube toTube).1 = true) :
    isValidMove s.tubes fromTube toTube maxBalls = true := by
  cases hc : isValidMove s.tubes fromTube toTube maxBalls with
  | false =>
      rw [makeMove_rejected maxBalls s fromTube toTube hc] at h
      simp at h
  | true => rfl

/-- Moving the top ball of a non-empty source tube onto another tube keeps
every per-color count unchanged. -/
theorem countColor_move (tubes : Board) (f t : Nat) (c : Color)
    (hft : f ≠ t) (hf : f < tubes.length) (ht : t < tubes.length)
    (hsrc : tubes.getD f [] ≠ []) :
    countColor c ((tubes.set f (tubes.getD f []).tail).set t
      ((tubes.getD f []).headD "" :: tubes.getD t [])) = countColor c tubes := by
  obtain ⟨ball, rest, hbr⟩ := List.exists_cons_of_ne_nil hsrc
  have h1 := countColor_set_general tubes f rest c hf
  have h2 := countColor_set_general (tubes.set f rest) t
    (((tubes.getD f []).headD "") :: tubes.getD t []) c (by rw [List.length_set]; exact ht)
  rw [getD_set_ne _ f t _ hft] at h2
  rw [hbr] at h1 h2 ⊢
  simp only [List.tail_cons, List.headD_cons] at h2 ⊢
  rw [List.count_cons] at h1 h2
  omega

/-- C6: an accepted interactive move and every solver successor preserve the
per-color ball count of the board. -/
theorem moves_preserve_ball_counts (maxBalls : Nat) :
    (∀ (s : Session) (fromTube toTube : Nat), toTube < s.tubes.length →
      (makeMove maxBalls s fromTube toTube).1 = true →
      ∀ c, countColor c (makeMove maxBalls s fromTube toTube).2.tubes =
        countColor c s.tubes) ∧
    (∀ (tubes : Board) (ns : NextState), ns ∈ getNextStates tubes maxBalls →
      ∀ c, countColor c ns.nextTubes = countColor c tubes) := by
  constructor
  · intro s fromTube toTube ht hacc c
    have hvalid := makeMove_accepted_valid maxBalls s fromTube toTube hacc
    obtain ⟨hft, hsrc, -⟩ := isValidMove_sound s.tubes fromTube toTube maxBalls hvalid
    have hf : fromTube < s.tubes.length := getD_ne_nil_lt s.tubes fromTube hsrc
    rw [makeMove_valid_eq maxBalls s fromTube toTube hvalid]
    simp only []
    rw [getD_set_ne _ fromTube toTube _ hft]
    exact countColor_move s.tubes fromTube toTube c hft hf ht hsrc
  · intro tubes ns hns c
    rw [getNextStates_eq_map] at hns
    obtain ⟨m, hm, rfl⟩ := List.mem_map.mp hns
    rw [show m = (m.1, m.2) from rfl, mem_candidatePairs_bool] at hm
    obtain ⟨hi, hj, hsrc, hij, -, -⟩ := hm
    have hsrcne : tubes.getD m.1 [] ≠ [] := by
      intro hn
      rw [Bool.or_eq_false_iff, decide_eq_false_iff_not] at hsrc
      exact hsrc.1 (by rw [hn]; rfl)
    exact countColor_move tubes m.1 m.2 c hij hi hj hsrcne

/-- Witness for C6: a concrete accepted move and a concrete generated
successor both preserve the count of red balls. -/
theorem moves_preserve_ball_counts_witness :
    (1 < sampleSession.tubes.length ∧ (makeMove 1 sampleSession 0 1).1 = true ∧
      countColor "RD" (makeMove 1 sampleSession 0 1).2.tubes =
        countColor "RD" sampleSession.tubes) ∧
    (mkNextState [["RD"], ["RD"], []] (0, 1) ∈ getNextStates [["RD"], ["RD"], []] 2 ∧
      countColor "RD" (mkNextState [["RD"], ["RD"], []] (0, 1)).nextTubes =
        countColor "RD" [["RD"], ["RD"], []]) :=
  ⟨⟨by decide, by decide,
    (moves_preserve_ball_counts 1).1 sampleSession 0 1 (by decide) (by decide) "RD"⟩,
   ⟨by decide,
    (moves_preserve_ball_counts 2).2 [["RD"], ["RD"], []]
      (mkNextState [["RD"], ["RD"], []] (0, 1)) (by decide) "RD"⟩⟩

/-! ## C10: the validator reports every applicable error -/

/-- Colors of a stream in first-occurrence order: the key order of a
JavaScript object filled by the counting loop. -/
def keysInOrder (l : List Color) : List Color :=
  l.foldl (fun acc c => if c ∈ acc then acc else acc ++ [c]) []

theorem keysInOrder_append_singleton (l : List Color) (c : Color) :
    keysInOrder (l ++ [c]) =
      if c ∈ keysInOrder l then keysInOrder l else keysInOrder l ++ [c] := by
  unfold keysInOrder
  rw [List.foldl_append]
  rfl

theorem mem_foldl_keys (l : List Color) (acc : List Color) (x : Color) :
    x ∈ l.foldl (fun acc c => if c ∈ acc then acc else acc ++ [c]) acc ↔
      x ∈ acc ∨ x ∈ l := by
  induction l generalizing acc with
  | nil => simp
  | cons a l ih =>
    rw [List.foldl_cons, ih]
    by_cases ha : a ∈ acc
    · rw [if_pos ha]
      constructor
      · rintro (h | h)
        · exact Or.inl h
        · exact Or.inr (List.mem_cons_of_mem a h)
      · rintro (h | h)
        · exact Or.inl h
        · rcases List.mem_cons.mp h with rfl | h
          · exact Or.inl ha
          · exact Or.inr h
    · rw [if_neg ha]
      simp only [List.mem_append, List.mem_singleton, List.mem_cons]
      tauto

theorem mem_keysInOrder (l : List Color) (x : Color) :
    x ∈ keysInOrder l ↔ x ∈ l := by
  unfold keysInOrder
  rw [mem_foldl_keys]
  simp

theorem keysInOrder_nodup (l : List Color) : (keysInOrder l).Nodup := by
  have main : ∀ (l acc : List Color), acc.Nodup →
      (l.foldl (fun acc c => if c ∈ acc then acc else acc ++ [c]) acc).Nodup := by
    intro l
    induction l with
    | nil => exact fun acc h => h
    | cons a l ih =>
      intro acc hacc
      rw [List.foldl_cons]
      by_cases ha : a ∈ acc
      · rw [if_pos ha]
        exact ih acc hacc
      · rw [if_neg ha]
        refine ih _ ?_
        rw [List.nodup_append]
        exact ⟨hacc, List.nodup_singleton a, by simpa using ha⟩
  exact main l [] List.nodup_nil

theorem count_append_singleton_ne (l : List Color) (x c : Color) (h : x ≠ c) :
    (l ++ [c]).count x = l.count x := by
  rw [List.count_append]
  simp [List.count_cons, Ne.symm h]

theorem count_append_singleton_self (l : List Color) (c : Color) :
    (l ++ [c]).count c = l.count c + 1 := by
  rw [List.count_append]
  simp

/-- The count map of the validator is exactly the observed colors in first
occurrence order, each paired with its total count in the flattened stream. -/
theorem foldl_bumpCount_eq (l : List Color) :
    l.foldl bumpCount [] = (keysInOrder l).map (fun c => (c, l.count c)) := by
  induction l using List.reverseRecOn with
  | nil => rfl
  | append_singleton l c ih =>
    rw [List.foldl_append, List.foldl_cons, List.foldl_nil, ih,
      keysInOrder_append_singleton]
    unfold bumpCount
    by_cases hc : c ∈ keysInOrder l
    · have hany : (((keysInOrder l).map (fun x => (x, l.count x))).any
          (fun p => p.1 = c)) = true := by
        rw [List.any_eq_true]
        exact ⟨(c, l.count c), List.mem_map.mpr ⟨c, hc, rfl⟩, by simp⟩
      rw [if_pos hany, if_pos hc, List.map_map]
      refine List.map_congr_left fun x hx => ?_
      simp only [Function.comp_apply]
      by_cases hxc : x = c
      · subst hxc
        rw [if_pos rfl, count_append_singleton_self]
      · rw [if_neg (by simpa using hxc), count_append_singleton_ne l x c hxc]
    · have hany : (((keysInOrder l).map (fun x => (x, l.count x))).any
          (fun p => p.1 = c)) = false := by
        rw [List.any_eq_false]
        rintro p hp
        obtain ⟨x, hx, rfl⟩ := List.mem_map.mp hp
        simp only [decide_eq_true_eq]
        intro hxc
        exact hc (hxc ▸ hx)
      rw [if_neg (by rw [hany]; simp), if_neg hc, List.map_append]
      congr 1
      · refine List.map_congr_left fun x hx => ?_
        have hxc : x ≠ c := fun hn => hc (hn ▸ hx)
        rw [count_append_singleton_ne l x c hxc]
      · have hcl : l.count c = 0 :=
          List.count_eq_zero.mpr (fun hn => hc ((mem_keysInOrder l c).mpr hn))
        rw [List.map_singleton, count_append_singleton_self, hcl]

theorem countsOf_eq (tubes : Board) :
    countsOf tubes =
      (keysInOrder tubes.flatten).map (fun c => (c, tubes.flatten.count c)) := by
  unfold countsOf
  rw [← List.foldl_flatten]
  exact foldl_bumpCount_eq tubes.flatten

theorem flatMap_if_singleton {α β : Type} (l : List α) (p : α → Prop) [DecidablePred p]
    (f : α → β) :
    (l.flatMap (fun x => if p x then [f x] else [])) =
      (l.filter (fun x => decide (p x))).map f := by
  induction l with
  | nil => rfl
  | cons a l ih =>
    rw [List.flatMap_cons, List.filter_cons]
    by_cases hp : p a
    · rw [if_pos hp, if_pos (by simpa using hp)]
      simp [ih]
    · rw [if_neg hp, if_neg (by simpa using hp)]
      simp [ih]

theorem validatePuzzle_errors_eq (tubes : Board) (maxBalls : Nat) :
    (validatePuzzle tubes maxBalls).errors =
      ((List.range tubes.length).filter
          (fun idx => decide (maxBalls < (tubes.getD idx []).length))).map
        (fun idx => capacityMsg idx maxBalls) ++
      ((keysInOrder tubes.flatten).filter
          (fun c => decide (tubes.flatten.count c ≠ maxBalls))).map
        (fun c => countMsg c (tubes.flatten.count c) maxBalls) ++
      ((keysInOrder tubes.flatten).filter (fun c => decide (c ∉ validColors))).map
        invalidColorMsg := by
  unfold validatePuzzle
  simp only []
  rw [countsOf_eq, List.flatMap_map, List.flatMap_map]
  rw [flatMap_if_singleton (List.range tubes.length)
    (fun idx => maxBalls < (tubes.getD idx []).length) (fun idx => capacityMsg idx maxBalls)]
  rw [flatMap_if_singleton (keysInOrder tubes.flatten)
    (fun c => tubes.flatten.count c ≠ maxBalls)
    (fun c => countMsg c (tubes.flatten.count c) maxBalls)]
  rw [flatMap_if_singleton (keysInOrder tubes.flatten)
    (fun c => c ∉ validColors) invalidColorMsg]

theorem validatePuzzle_valid_iff (tubes : Board) (maxBalls : Nat) :
    (validatePuzzle tubes maxBalls).valid = true ↔
      (∀ t ∈ tubes, t.length ≤ maxBalls) ∧
      (∀ c ∈ tubes.flatten, tubes.flatten.count c = maxBalls) ∧
      (∀ c ∈ tubes.flatten, c ∈ validColors) := by
  have hvalid : (validatePuzzle tubes maxBalls).valid =
      (validatePuzzle tubes maxBalls).errors.isEmpty := by
    unfold validatePuzzle
    rfl
  rw [hvalid, List.isEmpty_iff, validatePuzzle_errors_eq, List.append_eq_nil,
    List.append_eq_nil]
  simp only [List.map_eq_nil_iff, List.filter_eq_nil_iff, decide_eq_true_eq, List.mem_range]
  constructor
  · rintro ⟨⟨hcap, hcnt⟩, hinv⟩
    refine ⟨?_, ?_, ?_⟩
    · intro t htmem
      obtain ⟨idx, hidx, rfl⟩ := List.mem_iff_getElem.mp htmem
      have := hcap idx hidx
      rw [getD_eq_getElem tubes idx hidx] at this
      omega
    · intro c hc
      have := hcnt c ((mem_keysInOrder _ c).mpr hc)
      omega
    · intro c hc
      have := hinv c ((mem_keysInOrder _ c).mpr hc)
      exact not_not.mp this
  · rintro ⟨hcap, hcnt, hinv⟩
    refine ⟨⟨?_, ?_⟩, ?_⟩
    · intro idx hidx
      have hm : tubes.getD idx [] ∈ tubes := by
        rw [getD_eq_getElem tubes idx hidx]
        exact List.getElem_mem hidx
      have := hcap _ hm
      omega
    · intro c hc
      have := hcnt c ((mem_keysInOrder _ c).mp hc)
      omega
    · intro c hc
      exact not_not.mpr (hinv c ((mem_keysInOrder _ c).mp hc))

/-- C10: the validator evaluates every check and returns all applicable
errors together: one capacity error per oversized tube in index order, then
one count error per observed color with a wrong total, then one error per
unknown color token, with observed colors listed once each in first
occurrence order; and the board is valid exactly when no tube exceeds the
capacity, every observed color occurs exactly maxBalls times, and every
observed color is in the closed set. -/
theorem validator_reports_all_errors (tubes : Board) (maxBalls : Nat) :
    ((validatePuzzle tubes maxBalls).errors =
      ((List.range tubes.length).filter
          (fun idx => decide (maxBalls < (tubes.getD idx []).length))).map
        (fun idx => capacityMsg idx maxBalls) ++
      ((keysInOrder tubes.flatten).filter
          (fun c => decide (tubes.flatten.count c ≠ maxBalls))).map
        (fun c => countMsg c (tubes.flatten.count c) maxBalls) ++
      ((keysInOrder tubes.flatten).filter (fun c => decide (c ∉ validColors))).map
        invalidColorMsg) ∧
    (keysInOrder tubes.flatten).Nodup ∧
    (∀ c, c ∈ keysInOrder tubes.flatten ↔ c ∈ tubes.flatten) ∧
    ((validatePuzzle tubes maxBalls).valid = true ↔
      (∀ t ∈ tubes, t.length ≤ maxBalls) ∧
      (∀ c ∈ tubes.flatten, tubes.flatten.count c = maxBalls) ∧
      (∀ c ∈ tubes.flatten, c ∈ validColors)) :=
  ⟨validatePuzzle_errors_eq tubes maxBalls, keysInOrder_nodup _,
   fun c => mem_keysInOrder _ c, validatePuzzle_valid_iff tubes maxBalls⟩

/-! ## C5: the dedup serialization is injective on boards of one puzzle -/

/-- Character-level join with a separator: the data of Array.join in the
source. -/
def sepJoin (sep : List Char) (ws : List (List Char)) : List Char :=
  match ws with
  | [] => []
  | w :: rest => w ++ rest.flatMap (fun x => sep ++ x)

theorem sepJoin_cons_cons (sep : List Char) (w x : List Char) (rest : List (List Char)) :
    sepJoin sep (w :: x :: rest) = w ++ sep ++ sepJoin sep (x :: rest) := by
  simp [sepJoin, List.flatMap_cons, List.append_assoc]

theorem intercalate_go_data (s : String) (as : List String) (acc : String) :
    (String.intercalate.go acc s as).data =
      acc.data ++ as.flatMap (fun a => s.data ++ a.data) := by
  induction as generalizing acc with
  | nil => simp [String.intercalate.go]
  | cons a as ih =>
    rw [String.intercalate.go]
    rw [ih]
    simp [String.data_append, List.append_assoc]

theorem intercalate_data (s : String) (l : List String) :
    (String.intercalate s l).data = sepJoin s.data (l.map String.data) := by
  cases l with
  | nil => rfl
  | cons a as =>
    rw [String.intercalate, intercalate_go_data]
    simp [sepJoin, List.flatMap_map]

theorem mem_sepJoin (sep : List Char) (ws : List (List Char)) (c : Char)
    (h : c ∈ sepJoin sep ws) : c ∈ sep ∨ ∃ w ∈ ws, c ∈ w := by
  cases ws with
  | nil => simp [sepJoin] at h
  | cons w rest =>
    simp only [sepJoin, List.mem_append, List.mem_flatMap] at h
    rcases h with h | ⟨x, hx, hc⟩
    · exact Or.inr ⟨w, List.mem_cons_self w rest, h⟩
    · rcases hc with h | h
      · exact Or.inl h
      · exact Or.inr ⟨x, List.mem_cons_of_mem w hx, h⟩

theorem validColor_data (c : Color) (h : c ∈ validColors) :
    c.data.length = 2 ∧ ',' ∉ c.data ∧ '|' ∉ c.data := by
  fin_cases h <;> decide

/-- Splitting off a comma-free prefix before an explicit separator. -/
theorem takeWhile_sep (w tail : List Char) (sep : Char) (hw : sep ∉ w) :
    (w ++ sep :: tail).takeWhile (fun c => decide (c ≠ sep)) = w ∧
    (w ++ sep :: tail).dropWhile (fun c => decide (c ≠ sep)) = sep :: tail := by
  induction w with
  | nil => simp
  | cons a w ih =>
    have ha : a ≠ sep := fun hn => hw (hn ▸ List.mem_cons_self a w)
    have hw2 : sep ∉ w := fun hn => hw (List.mem_cons_of_mem a hn)
    obtain ⟨ih1, ih2⟩ := ih hw2
    constructor
    · rw [List.cons_append, List.takeWhile_cons, if_pos (by simpa using ha), ih1]
    · rw [List.cons_append, List.dropWhile_cons, if_pos (by simpa using ha), ih2]

theorem sepJoin_single_cons (c : Char) (w x : List Char) (rest : List (List Char)) :
    sepJoin [c] (w :: x :: rest) = w ++ c :: sepJoin [c] (x :: rest) := by
  rw [sepJoin_cons_cons]
  simp [List.append_assoc]

theorem sepJoin_pipe_inj : ∀ (ws1 ws2 : List (List Char)), ws1.length = ws2.length →
    (∀ w ∈ ws1, '|' ∉ w) → (∀ w ∈ ws2, '|' ∉ w) →
    sepJoin ['|'] ws1 = sepJoin ['|'] ws2 → ws1 = ws2 := by
  intro ws1
  induction ws1 with
  | nil =>
    intro ws2 hlen h1 h2 heq
    cases ws2 with
    | nil => rfl
    | cons w rest => simp at hlen
  | cons w1 r1 ih =>
    intro ws2 hlen h1 h2 heq
    cases ws2 with
    | nil => simp at hlen
    | cons w2 r2 =>
      have hw1 : '|' ∉ w1 := h1 w1 (List.mem_cons_self _ _)
      have hw2 : '|' ∉ w2 := h2 w2 (List.mem_cons_self _ _)
      cases r1 with
      | nil =>
        cases r2 with
        | nil =>
          simp only [sepJoin, List.flatMap_nil, List.append_nil] at heq
          rw [heq]
        | cons x2 xs2 => simp at hlen
      | cons x1 xs1 =>
        cases r2 with
        | nil => simp at hlen
        | cons x2 xs2 =>
          rw [sepJoin_single_cons, sepJoin_single_cons] at heq
          have hsplit1 := takeWhile_sep w1 (sepJoin ['|'] (x1 :: xs1)) '|' hw1
          have hsplit2 := takeWhile_sep w2 (sepJoin ['|'] (x2 :: xs2)) '|' hw2
          have hweq : w1 = w2 := by
            have hcong := congrArg (List.takeWhile (fun c => decide (c ≠ '|'))) heq
            rw [hsplit1.1, hsplit2.1] at hcong
            exact hcong
          subst hweq
          have htails : sepJoin ['|'] (x1 :: xs1) = sepJoin ['|'] (x2 :: xs2) := by
            have hc := List.append_cancel_left heq
            exact List.tail_eq_of_cons_eq hc
          rw [ih (x2 :: xs2) (by simpa using hlen)
            (fun w hw => h1 w (List.mem_cons_of_mem _ hw))
            (fun w hw => h2 w (List.mem_cons_of_mem _ hw)) htails]

theorem sepJoin_comma_inj : ∀ (ws1 ws2 : List (List Char)),
    (∀ w ∈ ws1, w.length = 2 ∧ ',' ∉ w) →
    (∀ w ∈ ws2, w.length = 2 ∧ ',' ∉ w) →
    sepJoin [','] ws1 = sepJoin [','] ws2 → ws1 = ws2 := by
  intro ws1
  induction ws1 with
  | nil =>
    intro ws2 h1 h2 heq
    cases ws2 with
    | nil => rfl
    | cons w rest =>
      exfalso
      have hlen := congrArg List.length heq
      have hw := (h2 w (List.mem_cons_self _ _)).1
      cases rest with
      | nil =>
        simp only [sepJoin, List.flatMap_nil, List.append_nil, List.length_nil] at hlen
        omega
      | cons x xs =>
        rw [sepJoin_single_cons] at hlen
        simp only [sepJoin, List.length_nil, List.length_append, List.length_cons] at hlen
        omega
  | cons w1 r1 ih =>
    intro ws2 h1 h2 heq
    cases ws2 with
    | nil =>
      exfalso
      have hlen := congrArg List.length heq
      have hw := (h1 w1 (List.mem_cons_self _ _)).1
      cases r1 with
      | nil =>
        simp only [sepJoin, List.flatMap_nil, List.append_nil, List.length_nil] at hlen
        omega
      | cons x xs =>
        rw [sepJoin_single_cons] at hlen
        simp only [sepJoin, List.length_nil, List.length_append, List.length_cons] at hlen
        omega
    | cons w2 r2 =>
      have hl1 := h1 w1 (List.mem_cons_self _ _)
      have hl2 := h2 w2 (List.mem_cons_self _ _)
      cases r1 with
      | nil =>
        cases r2 with
        | nil =>
          simp only [sepJoin, List.flatMap_nil, List.append_nil] at heq
          rw [heq]
        | cons x2 xs2 =>
          exfalso
          rw [sepJoin_single_cons] at heq
          simp only [sepJoin, List.flatMap_nil, List.append_nil] at heq
          have hlen := congrArg List.length heq
          simp only [List.length_append, List.length_cons] at hlen
          have hx2 := (h2 x2 (List.mem_cons_of_mem _ (List.mem_cons_self _ _))).1
          have hge : (sepJoin [','] (x2 :: xs2)).length ≥ 2 := by
            cases xs2 with
            | nil => simp [sepJoin, hx2]
            | cons y ys =>
              rw [sepJoin_single_cons]
              simp only [List.length_append, hx2]
              omega
          omega
      | cons x1 xs1 =>
        cases r2 with
        | nil =>
          exfalso
          rw [sepJoin_single_cons] at heq
          simp only [sepJoin, List.flatMap_nil, List.append_nil] at heq
          have hlen := congrArg List.length heq
          simp only [List.length_append, List.length_cons] at hlen
          have hx1 := (h1 x1 (List.mem_cons_of_mem _ (List.mem_cons_self _ _))).1
          have hge : (sepJoin [','] (x1 :: xs1)).length ≥ 2 := by
            cases xs1 with
            | nil => simp [sepJoin, hx1]
            | cons y ys =>
              rw [sepJoin_single_cons]
              simp only [List.length_append, hx1]
              omega
          omega
        | cons x2 xs2 =>
          rw [sepJoin_single_cons, sepJoin_single_cons] at heq
          obtain ⟨hw, hrest⟩ := List.append_inj heq (by rw [hl1.1, hl2.1])
          have htails : sepJoin [','] (x1 :: xs1) = sepJoin [','] (x2 :: xs2) :=
            List.tail_eq_of_cons_eq hrest
          rw [hw, ih (x2 :: xs2)
            (fun w hw => h1 w (List.mem_cons_of_mem _ hw))
            (fun w hw => h2 w (List.mem_cons_of_mem _ hw)) htails]

/-- Character data of the inner join of one tube. -/
def tubeChars (t : Tube) : List Char :=
  sepJoin [','] (t.map String.data)

theorem tubeChars_no_pipe (t : Tube) (h : ∀ ball ∈ t, ball ∈ validColors) :
    '|' ∉ tubeChars t := by
  intro hc
  rcases mem_sepJoin _ _ _ hc with hsep | ⟨w, hw, hcw⟩
  · simp at hsep
  · obtain ⟨ball, hball, rfl⟩ := List.mem_map.mp hw
    exact (validColor_data ball (h ball hball)).2.2 hcw

theorem tubeChars_inj (t1 t2 : Tube)
    (h1 : ∀ ball ∈ t1, ball ∈ validColors) (h2 : ∀ ball ∈ t2, ball ∈ validColors)
    (heq : tubeChars t1 = tubeChars t2) : t1 = t2 := by
  unfold tubeChars at heq
  have hmap := sepJoin_comma_inj (t1.map String.data) (t2.map String.data)
    (by
      intro w hw
      obtain ⟨ball, hball, rfl⟩ := List.mem_map.mp hw
      exact ⟨(validColor_data ball (h1 ball hball)).1, (validColor_data ball (h1 ball hball)).2.1⟩)
    (by
      intro w hw
      obtain ⟨ball, hball, rfl⟩ := List.mem_map.mp hw
      exact ⟨(validColor_data ball (h2 ball hball)).1, (validColor_data ball (h2 ball hball)).2.1⟩)
    heq
  clear heq h1 h2
  induction t1 generalizing t2 with
  | nil =>
    cases t2 with
    | nil => rfl
    | cons b bs => simp at hmap
  | cons a as ih =>
    cases t2 with
    | nil => simp at hmap
    | cons b bs =>
      simp only [List.map_cons, List.cons.injEq] at hmap
      rw [String.ext hmap.1, ih bs hmap.2]

theorem serializeTubes_data (tubes : Board) :
    (serializeTubes tubes).data = sepJoin ['|'] (tubes.map tubeChars) := by
  unfold serializeTubes
  rw [intercalate_data]
  congr 1
  rw [List.map_map]
  refine List.map_congr_left fun t ht => ?_
  simp only [Function.comp_apply]
  rw [intercalate_data]
  rfl

/-- Injectivity of the dedup serialization on boards with the same number of
tubes and balls from the closed color set. -/
theorem serializeTubes_inj (b1 b2 : Board) (hlen : b1.length = b2.length)
    (h1 : ∀ t ∈ b1, ∀ ball ∈ t, ball ∈ validColors)
    (h2 : ∀ t ∈ b2, ∀ ball ∈ t, ball ∈ validColors)
    (heq : serializeTubes b1 = serializeTubes b2) : b1 = b2 := by
  have hdata : (serializeTubes b1).data = (serializeTubes b2).data := by rw [heq]
  rw [serializeTubes_data, serializeTubes_data] at hdata
  have hmap := sepJoin_pipe_inj (b1.map tubeChars) (b2.map tubeChars)
    (by simp [hlen])
    (by
      intro w hw
      obtain ⟨t, ht, rfl⟩ := List.mem_map.mp hw
      exact tubeChars_no_pipe t (h1 t ht))
    (by
      intro w hw
      obtain ⟨t, ht, rfl⟩ := List.mem_map.mp hw
      exact tubeChars_no_pipe t (h2 t ht))
    hdata
  clear hdata heq hlen
  induction b1 generalizing b2 with
  | nil =>
    cases b2 with
    | nil => rfl
    | cons t ts => simp at hmap
  | cons t1 ts1 ih =>
    cases b2 with
    | nil => simp at hmap
    | cons t2 ts2 =>
      simp only [List.map_cons, List.cons.injEq] at hmap
      have hteq : t1 = t2 :=
        tubeChars_inj t1 t2 (h1 t1 (List.mem_cons_self _ _)) (h2 t2 (List.mem_cons_self _ _))
          hmap.1
      rw [hteq, ih ts2 (fun t ht => h1 t (List.mem_cons_of_mem _ ht))
        (fun t ht => h2 t (List.mem_cons_of_mem _ ht)) hmap.2]

/-- C5: for two boards of the same puzzle (same tube count, balls from the
closed color set), the dedup serialization strings are identical exactly when
the boards are equal tube by tube. -/
theorem serialization_injective_on_boards (b1 b2 : Board)
    (hlen : b1.length = b2.length)
    (h1 : ∀ t ∈ b1, ∀ ball ∈ t, ball ∈ validColors)
    (h2 : ∀ t ∈ b2, ∀ ball ∈ t, ball ∈ validColors) :
    serializeTubes b1 = serializeTubes b2 ↔ b1 = b2 :=
  ⟨serializeTubes_inj b1 b2 hlen h1 h2, fun h => h ▸ rfl⟩

/-- Witness for C5 on two concrete same-size boards that differ only in tube
order: the serializations differ, matching board inequality. -/
theorem serialization_injective_on_boards_witness :
    (([["RD"], []] : Board).length = ([[], ["RD"]] : Board).length ∧
     (∀ t ∈ ([["RD"], []] : Board), ∀ ball ∈ t, ball ∈ validColors) ∧
     (∀ t ∈ ([[], ["RD"]] : Board), ∀ ball ∈ t, ball ∈ validColors)) ∧
    (serializeTubes [["RD"], []] = serializeTubes [[], ["RD"]] ↔
      ([["RD"], []] : Board) = [[], ["RD"]]) :=
  ⟨⟨by decide, by decide, by decide⟩,
   serialization_injective_on_boards [["RD"], []] [[], ["RD"]]
     (by decide) (by decide) (by decide)⟩

/-! ## Branch equations of the search loop -/

theorem bfsLoop_zero (maxBalls maxMoves timeLimit : Nat) (elapsed : Nat → Nat)
    (queue : List SearchNode) (visited : List String)
    (moveCount maxQueueSize : Nat) (history : List Nat) :
    bfsLoop maxBalls maxMoves timeLimit elapsed 0 queue visited moveCount maxQueueSize history =
      bfsFailure maxMoves moveCount visited maxQueueSize history none := by
  rfl

theorem bfsLoop_nil (maxBalls maxMoves timeLimit : Nat) (elapsed : Nat → Nat)
    (fuel : Nat) (visited : List String)
    (moveCount maxQueueSize : Nat) (history : List Nat) :
    bfsLoop maxBalls maxMoves timeLimit elapsed (fuel + 1) [] visited moveCount maxQueueSize history =
      bfsFailure maxMoves moveCount visited maxQueueSize history none := by
  rfl

theorem bfsLoop_cons_time (maxBalls maxMoves timeLimit : Nat) (elapsed : Nat → Nat)
    (fuel : Nat) (node : SearchNode) (rest : List SearchNode) (visited : List String)
    (moveCount maxQueueSize : Nat) (history : List Nat)
    (h : timeLimit < elapsed moveCount) :
    bfsLoop maxBalls maxMoves timeLimit elapsed (fuel + 1) (node :: rest) visited
        moveCount maxQueueSize history =
      bfsFailure maxMoves moveCount visited maxQueueSize history
        (some "Time limit exceeded") := by
  rw [bfsLoop]
  rw [if_pos h]

theorem bfsLoop_cons_solved (maxBalls maxMoves timeLimit : Nat) (elapsed : Nat → Nat)
    (fuel : Nat) (node : SearchNode) (rest : List SearchNode) (visited : List String)
    (moveCount maxQueueSize : Nat) (history : List Nat)
    (h1 : ¬ timeLimit < elapsed moveCount) (h2 : isSolved node.tubes maxBalls = true) :
    bfsLoop maxBalls maxMoves timeLimit elapsed (fuel + 1) (node :: rest) visited
        moveCount maxQueueSize history =
      { solvable := true, moves := node.path, error := none,
        moveCount := some (moveCount + 1), statesExplored := some visited.length,
        validation := none,
        searchStats := some
          { totalStatesExplored := moveCount + 1,
            maxQueueSize := max maxQueueSize rest.length,
            queueSizeHistory :=
              if (moveCount + 1) % 10000 = 0 then history ++ [rest.length] else history,
            reason := some "Solution found" } } := by
  rw [bfsLoop]
  rw [if_neg h1]
  simp only [h2, if_true]

theorem bfsLoop_cons_step (maxBalls maxMoves timeLimit : Nat) (elapsed : Nat → Nat)
    (fuel : Nat) (node : SearchNode) (rest : List SearchNode) (visited : List String)
    (moveCount maxQueueSize : Nat) (history : List Nat)
    (h1 : ¬ timeLimit < elapsed moveCount) (h2 : isSolved node.tubes maxBalls = false) :
    bfsLoop maxBalls maxMoves timeLimit elapsed (fuel + 1) (node :: rest) visited
        moveCount maxQueueSize history =
      bfsLoop maxBalls maxMoves timeLimit elapsed fuel
        (enqueueAll node.path (getNextStates node.tubes maxBalls) rest visited).1
        (enqueueAll node.path (getNextStates node.tubes maxBalls) rest visited).2
        (moveCount + 1) (max maxQueueSize rest.length)
        (if (moveCount + 1) % 10000 = 0 then history ++ [rest.length] else history) := by
  rw [bfsLoop]
  rw [if_neg h1]
  simp only [h2, Bool.false_eq_true, if_false]

/-- Any run of the loop that does not return a solution ends with a failure
record whose reason is one of the three non-success reasons, with the
visited-set size and the accumulated statistics. -/
theorem bfsLoop_failure_fields (maxBalls maxMoves timeLimit : Nat)
    (elapsed : Nat → Nat) :
    ∀ (fuel : Nat) (queue : List SearchNode) (visited : List String)
      (moveCount maxQueueSize : Nat) (history : List Nat),
    (bfsLoop maxBalls maxMoves timeLimit elapsed fuel queue visited
        moveCount maxQueueSize history).solvable = false →
    ∃ n stats,
      (bfsLoop maxBalls maxMoves timeLimit elapsed fuel queue visited
          moveCount maxQueueSize history).statesExplored = some n ∧
      (bfsLoop maxBalls maxMoves timeLimit elapsed fuel queue visited
          moveCount maxQueueSize history).searchStats = some stats ∧
      (bfsLoop maxBalls maxMoves timeLimit elapsed fuel queue visited
          moveCount maxQueueSize history).error = stats.reason ∧
      (stats.reason = some "Time limit exceeded" ∨
       stats.reason = some "Exceeded maximum moves" ∨
       stats.reason = some "No solution found") := by
  intro fuel
  induction fuel with
  | zero =>
    intro queue visited moveCount maxQueueSize history hfail
    rw [bfsLoop_zero]
    unfold bfsFailure
    simp only [Option.getD_none]
    by_cases hm : maxMoves ≤ moveCount
    · exact ⟨visited.length, _, rfl, rfl, by rw [if_pos hm], by rw [if_pos hm]; right; left; rfl⟩
    · exact ⟨visited.length, _, rfl, rfl, by rw [if_neg hm], by rw [if_neg hm]; right; right; rfl⟩
  | succ fuel ih =>
    intro queue visited moveCount maxQueueSize history hfail
    cases queue with
    | nil =>
      rw [bfsLoop_nil]
      unfold bfsFailure
      simp only [Option.getD_none]
      by_cases hm : maxMoves ≤ moveCount
      · exact ⟨visited.length, _, rfl, rfl, by rw [if_pos hm], by rw [if_pos hm]; right; left; rfl⟩
      · exact ⟨visited.length, _, rfl, rfl, by rw [if_neg hm], by rw [if_neg hm]; right; right; rfl⟩
    | cons node rest =>
      by_cases htime : timeLimit < elapsed moveCount
      · rw [bfsLoop_cons_time _ _ _ _ _ _ _ _ _ _ _ htime]
        exact ⟨visited.length, _, rfl, rfl, rfl, Or.inl rfl⟩
      · cases hsol : isSolved node.tubes maxBalls with
        | true =>
          rw [bfsLoop_cons_solved _ _ _ _ _ _ _ _ _ _ _ htime hsol] at hfail
          simp at hfail
        | false =>
          rw [bfsLoop_cons_step _ _ _ _ _ _ _ _ _ _ _ htime hsol] at hfail ⊢
          exact ih _ _ _ _ _ hfail

/-- C3 amended: the loop exits are checked in source order: the while
condition (queue non-empty, dequeue counter below the budget) first, then the
wall clock, and only then the solved test on the dequeued board; a solved
board within budgets returns the path with reason Solution found, every other
exit returns solvable false with one of the three failure reasons, and all
exits return the visited-set size and the accumulated statistics. -/
theorem termination_checks_characterization
    (maxBalls maxMoves timeLimit : Nat) (elapsed : Nat → Nat) (fuel : Nat)
    (node : SearchNode) (rest queue : List SearchNode)
    (visited : List String) (moveCount maxQueueSize : Nat) (history : List Nat)
    (initialTubes : Board) :
    (bfsLoop maxBalls maxMoves timeLimit elapsed 0 queue visited moveCount
        maxQueueSize history =
      bfsFailure maxMoves moveCount visited maxQueueSize history none) ∧
    (bfsLoop maxBalls maxMoves timeLimit elapsed (fuel + 1) [] visited moveCount
        maxQueueSize history =
      bfsFailure maxMoves moveCount visited maxQueueSize history none) ∧
    (timeLimit < elapsed moveCount →
      bfsLoop maxBalls maxMoves timeLimit elapsed (fuel + 1) (node :: rest) visited
          moveCount maxQueueSize history =
        bfsFailure maxMoves moveCount visited maxQueueSize history
          (some "Time limit exceeded")) ∧
    (elapsed moveCount ≤ timeLimit → isSolved node.tubes maxBalls = true →
      (bfsLoop maxBalls maxMoves timeLimit elapsed (fuel + 1) (node :: rest) visited
          moveCount maxQueueSize history).solvable = true ∧
      (bfsLoop maxBalls maxMoves timeLimit elapsed (fuel + 1) (node :: rest) visited
          moveCount maxQueueSize history).moves = node.path ∧
      (bfsLoop maxBalls maxMoves timeLimit elapsed (fuel + 1) (node :: rest) visited
          moveCount maxQueueSize history).statesExplored = some visited.length ∧
      ∃ stats,
        (bfsLoop maxBalls maxMoves timeLimit elapsed (fuel + 1) (node :: rest) visited
            moveCount maxQueueSize history).searchStats = some stats ∧
        stats.reason = some "Solution found") ∧
    (∀ r : Option String,
      (bfsFailure maxMoves moveCount visited maxQueueSize history r).solvable = false ∧
      (bfsFailure maxMoves moveCount visited maxQueueSize history r).statesExplored =
        some visited.length ∧
      (bfsFailure maxMoves moveCount visited maxQueueSize history r).error =
        some (r.getD
          (if maxMoves ≤ moveCount then "Exceeded maximum moves" else "No solution found")) ∧
      (bfsFailure maxMoves moveCount visited maxQueueSize history r).searchStats =
        some { totalStatesExplored := moveCount, maxQueueSize := maxQueueSize,
               queueSizeHistory := history,
               reason := some (r.getD
                 (if maxMoves ≤ moveCount then "Exceeded maximum moves"
                  else "No solution found")) }) ∧
    ((validatePuzzle initialTubes maxBalls).valid = true →
      (solvePuzzleBFS initialTubes maxBalls maxMoves timeLimit elapsed).solvable = false →
      ∃ n stats,
        (solvePuzzleBFS initialTubes maxBalls maxMoves timeLimit elapsed).statesExplored =
          some n ∧
        (solvePuzzleBFS initialTubes maxBalls maxMoves timeLimit elapsed).searchStats =
          some stats ∧
        (solvePuzzleBFS initialTubes maxBalls maxMoves timeLimit elapsed).error =
          stats.reason ∧
        (stats.reason = some "Time limit exceeded" ∨
         stats.reason = some "Exceeded maximum moves" ∨
         stats.reason = some "No solution found")) := by
  refine ⟨bfsLoop_zero _ _ _ _ _ _ _ _ _, bfsLoop_nil _ _ _ _ _ _ _ _ _, ?_, ?_, ?_, ?_⟩
  · intro htime
    exact bfsLoop_cons_time _ _ _ _ _ _ _ _ _ _ _ htime
  · intro htime hsol
    rw [bfsLoop_cons_solved _ _ _ _ _ _ _ _ _ _ _ (by omega) hsol]
    exact ⟨rfl, rfl, rfl, _, rfl, rfl⟩
  · intro r
    exact ⟨rfl, rfl, rfl, rfl⟩
  · intro hvalid hfail
    unfold solvePuzzleBFS at hfail ⊢
    simp only [hvalid, Bool.not_true, Bool.false_eq_true, if_false] at hfail ⊢
    exact bfsLoop_failure_fields _ _ _ _ _ _ _ _ _ _ hfail

/-- Counterexample for C3 as stated: a valid, already solved board submitted
with an exceeded wall clock is reported as Time limit exceeded (the time
check runs before any dequeue and before the solved check), not as the
claimed Solution found. -/
theorem termination_check_order_counterexample :
    (validatePuzzle [["RD"]] 1).valid = true ∧
    isSolved [["RD"]] 1 = true ∧
    (solvePuzzleBFS [["RD"]] 1 25000000 600000 (fun _ => 700000)).error =
      some "Time limit exceeded" ∧
    ¬ ((solvePuzzleBFS [["RD"]] 1 25000000 600000 (fun _ => 700000)).solvable = true) := by
  refine ⟨by decide, by decide, by decide, ?_⟩
  intro h
  have hfalse : (solvePuzzleBFS [["RD"]] 1 25000000 600000 (fun _ => 700000)).solvable =
      false := by decide
  rw [h] at hfalse
  exact Bool.noConfusion hfalse

/-- Witness for the amended C3 at concrete loop states: the time exit fires
even on a solved head, and the solved exit fires within budgets. -/
theorem termination_checks_characterization_witness :
    (600000 < 700000 →
      bfsLoop 1 10 600000 (fun _ => 700000) 5
          [{ tubes := [["RD"]], path := [] }] ["RD"] 0 1 [] =
        bfsFailure 10 0 ["RD"] 1 [] (some "Time limit exceeded")) ∧
    (600000 < 700000) ∧
    ((0 : Nat) ≤ 600000) ∧
    isSolved [["RD"]] 1 = true ∧
    (bfsLoop 1 10 600000 (fun _ => 0) 5
        [{ tubes := [["RD"]], path := [] }] ["RD"] 0 1 [] ).solvable = true :=
  ⟨(termination_checks_characterization 1 10 600000 (fun _ => 700000) 4
      { tubes := [["RD"]], path := [] } [] [] ["RD"] 0 1 [] [["RD"]]).2.2.1,
   by decide, by decide, by decide,
   ((termination_checks_characterization 1 10 600000 (fun _ => 0) 4
      { tubes := [["RD"]], path := [] } [] [] ["RD"] 0 1 [] [["RD"]]).2.2.2.1
      (by decide) (by decide)).1⟩

/-! ## C1: shortest paths, the pruned move graph, and the pruning gap -/

/-- The board transform of one move: pop the source top, push it on the
target (both tubes read from the original board, as in getNextStates). -/
def moveBoard (tubes : Board) (i j : Nat) : Board :=
  (tubes.set i (tubes.getD i []).tail).set j
    ((tubes.getD i []).headD "" :: tubes.getD j [])

/-- Apply a sequence of (source, target) moves. -/
def applyMoves (tubes : Board) : List (Nat × Nat) → Board
  | [] => tubes
  | m :: rest => applyMoves (moveBoard tubes m.1 m.2) rest

/-- A move sequence is legal when every step satisfies the move legality
predicate on the board it is applied to. -/
def legalSeq (maxBalls : Nat) (tubes : Board) : List (Nat × Nat) → Bool
  | [] => true
  | m :: rest =>
      isValidMove tubes m.1 m.2 maxBalls && legalSeq maxBalls (moveBoard tubes m.1 m.2) rest

/-- Boards generated from a board by the solver successor generation. -/
def succBoards (maxBalls : Nat) (tubes : Board) : List Board :=
  (getNextStates tubes maxBalls).map (fun ns => ns.nextTubes)

/-- Reachability in exactly n steps of the pruned move graph explored by the
solver. -/
def ReachN (maxBalls : Nat) : Nat → Board → Board → Prop
  | 0, s, t => t = s
  | n + 1, s, t => ∃ u ∈ succBoards maxBalls s, ReachN maxBalls n u t

theorem reachN_zero (maxBalls : Nat) (s t : Board) :
    ReachN maxBalls 0 s t ↔ t = s := Iff.rfl

theorem reachN_succ (maxBalls n : Nat) (s t : Board) :
    ReachN maxBalls (n + 1) s t ↔ ∃ u ∈ succBoards maxBalls s, ReachN maxBalls n u t :=
  Iff.rfl

theorem reachN_snoc (maxBalls : Nat) :
    ∀ (n : Nat) (s u v : Board), ReachN maxBalls n s u → v ∈ succBoards maxBalls u →
      ReachN maxBalls (n + 1) s v := by
  intro n
  induction n with
  | zero =>
    intro s u v hsu hv
    rw [reachN_zero] at hsu
    subst hsu
    exact ⟨v, hv, rfl⟩
  | succ n ih =>
    intro s u v hsu hv
    obtain ⟨x, hx, hxu⟩ := hsu
    exact ⟨x, hx, ih x u v hxu hv⟩

/-- The board on which the pruning heuristic forfeits optimality: three tubes
each holding light blue on dark blue, one empty tube, capacity three. -/
def cexBoard : Board := [[], ["LB", "DB"], ["LB", "DB"], ["LB", "DB"]]

/-- A five move legal solution of cexBoard; its first move parks a ball on
the empty tube although other tubes show the same top color, so the solver
prunes it. -/
def cexMoves : List (Nat × Nat) := [(1, 0), (2, 0), (1, 2), (3, 0), (3, 2)]

/-- Counterexample for C1 as stated: on cexBoard the solver reports
solvable with a six move path, but a five move legal solution exists, so the
returned length is not minimal over all legal move sequences. -/
theorem solver_shortest_claim_counterexample :
    legalSeq 3 cexBoard cexMoves = true ∧
    isSolved (applyMoves cexBoard cexMoves) 3 = true ∧
    cexMoves.length = 5 ∧
    (solvePuzzleBFS cexBoard 3 200 600000 (fun _ => 0)).solvable = true ∧
    (solvePuzzleBFS cexBoard 3 200 600000 (fun _ => 0)).moves.length = 6 ∧
    ¬ (∀ seq : List (Nat × Nat), legalSeq 3 cexBoard seq = true →
        isSolved (applyMoves cexBoard seq) 3 = true →
        (solvePuzzleBFS cexBoard 3 200 600000 (fun _ => 0)).moves.length ≤ seq.length) := by
  have h6 : (solvePuzzleBFS cexBoard 3 200 600000 (fun _ => 0)).moves.length = 6 := by decide
  refine ⟨by decide, by decide, rfl, by decide, h6, ?_⟩
  intro hall
  have h5 := hall cexMoves (by decide) (by decide)
  rw [h6] at h5
  exact absurd h5 (by decide)

/-- Well-formedness carried along the search: fixed tube count and all balls
from the closed color set. -/
def WFBoard (s0 t : Board) : Prop :=
  t.length = s0.length ∧ ∀ tube ∈ t, ∀ ball ∈ tube, ball ∈ validColors

theorem countColor_eq_flatten (c : Color) (tubes : Board) :
    countColor c tubes = List.count c tubes.flatten :=
  (List.count_flatten c tubes).symm

theorem candidatePairs_basic (tubes : Board) (maxBalls : Nat) (m : Nat × Nat)
    (hm : m ∈ candidatePairs tubes maxBalls) :
    m.1 < tubes.length ∧ m.2 < tubes.length ∧ m.1 ≠ m.2 ∧ tubes.getD m.1 [] ≠ [] := by
  rw [show m = (m.1, m.2) from rfl, mem_candidatePairs_bool] at hm
  obtain ⟨hi, hj, hsrc, hij, -, -⟩ := hm
  refine ⟨hi, hj, hij, ?_⟩
  intro hn
  rw [Bool.or_eq_false_iff, decide_eq_false_iff_not] at hsrc
  exact hsrc.1 (by rw [hn]; rfl)

theorem mem_succBoards (maxBalls : Nat) (tubes u : Board) :
    u ∈ succBoards maxBalls tubes ↔
      ∃ m ∈ candidatePairs tubes maxBalls, u = moveBoard tubes m.1 m.2 := by
  unfold succBoards
  rw [getNextStates_eq_map, List.map_map, List.mem_map]
  constructor
  · rintro ⟨m, hm, rfl⟩
    exact ⟨m, hm, rfl⟩
  · rintro ⟨m, hm, rfl⟩
    exact ⟨m, hm, rfl⟩

theorem succ_countColor (maxBalls : Nat) (tubes u : Board)
    (hu : u ∈ succBoards maxBalls tubes) (c : Color) :
    countColor c u = countColor c tubes := by
  rw [mem_succBoards] at hu
  obtain ⟨m, hm, rfl⟩ := hu
  obtain ⟨hi, hj, hij, hsrc⟩ := candidatePairs_basic tubes maxBalls m hm
  exact countColor_move tubes m.1 m.2 c hij hi hj hsrc

theorem succ_WF (maxBalls : Nat) (s0 tubes u : Board)
    (hWF : WFBoard s0 tubes) (hu : u ∈ succBoards maxBalls tubes) :
    WFBoard s0 u := by
  have hcnt := succ_countColor maxBalls tubes u hu
  have hlen : u.length = tubes.length := by
    rw [mem_succBoards] at hu
    obtain ⟨m, hm, rfl⟩ := hu
    unfold moveBoard
    rw [List.length_set, List.length_set]
  refine ⟨by rw [hlen, hWF.1], ?_⟩
  intro tube htube ball hball
  have hmem : ball ∈ u.flatten := List.mem_flatten.mpr ⟨tube, htube, hball⟩
  have hcount : 0 < List.count ball u.flatten := List.count_pos_iff.mpr hmem
  rw [← countColor_eq_flatten, hcnt, countColor_eq_flatten] at hcount
  have hmem2 : ball ∈ tubes.flatten := List.count_pos_iff.mp hcount
  obtain ⟨tube2, htube2, hball2⟩ := List.mem_flatten.mp hmem2
  exact hWF.2 tube2 htube2 ball hball2

theorem reach_WF (maxBalls : Nat) (s0 : Board) :
    ∀ (n : Nat) (s t : Board), WFBoard s0 s → ReachN maxBalls n s t → WFBoard s0 t := by
  intro n
  induction n with
  | zero =>
    intro s t hs hr
    rw [reachN_zero] at hr
    exact hr ▸ hs
  | succ n ih =>
    intro s t hs hr
    obtain ⟨u, hu, hut⟩ := hr
    exact ih u t (succ_WF maxBalls s0 s u hs hu) hut

/-- Serializations identify boards among the well-formed boards of one run. -/
theorem serialize_inj_WF (s0 t1 t2 : Board) (h1 : WFBoard s0 t1) (h2 : WFBoard s0 t2)
    (heq : serializeTubes t1 = serializeTubes t2) : t1 = t2 :=
  serializeTubes_inj t1 t2 (by rw [h1.1, h2.1]) h1.2 h2.2 heq

/-- A validated board is well formed: every observed color code is in the
closed set. -/
theorem valid_WF (tubes : Board) (maxBalls : Nat)
    (h : (validatePuzzle tubes maxBalls).valid = true) : WFBoard tubes tubes := by
  refine ⟨rfl, ?_⟩
  have hchar := (validatePuzzle_valid_iff tubes maxBalls).mp h
  intro tube htube ball hball
  exact hchar.2.2 ball (List.mem_flatten.mpr ⟨tube, htube, hball⟩)

/-- The search invariant: the initial serialization is visited; every queued
node carries a real pruned path whose serialization is visited; queued path
lengths are sorted and spread by at most one; queued paths are shortest; and
every visited serialization is either still queued or belongs to an expanded
unsolved board all of whose successors are visited. -/
def Inv (maxBalls : Nat) (s0 : Board) (queue : List SearchNode)
    (visited : List String) : Prop :=
  serializeTubes s0 ∈ visited ∧
  (∀ v ∈ queue, ReachN maxBalls v.path.length s0 v.tubes ∧
    serializeTubes v.tubes ∈ visited) ∧
  List.Pairwise (fun a b : SearchNode => a.path.length ≤ b.path.length) queue ∧
  (∀ a ∈ queue, ∀ b ∈ queue, a.path.length ≤ b.path.length + 1) ∧
  (∀ v ∈ queue, ∀ n, ReachN maxBalls n s0 v.tubes → v.path.length ≤ n) ∧
  (∀ str ∈ visited,
    (∃ v ∈ queue, serializeTubes v.tubes = str) ∨
    (∃ t, serializeTubes t = str ∧ (∃ n, ReachN maxBalls n s0 t) ∧
      isSolved t maxBalls = false ∧
      ∀ u ∈ succBoards maxBalls t, serializeTubes u ∈ visited))

theorem enqueueAll_cons_mem (p : List String) (x : NextState) (xs : List NextState)
    (q : List SearchNode) (vis : List String)
    (h : vis.contains (serializeTubes x.nextTubes) = true) :
    enqueueAll p (x :: xs) q vis = enqueueAll p xs q vis := by
  unfold enqueueAll
  rw [List.foldl_cons]
  simp only [h, if_true]

theorem enqueueAll_cons_new (p : List String) (x : NextState) (xs : List NextState)
    (q : List SearchNode) (vis : List String)
    (h : vis.contains (serializeTubes x.nextTubes) = false) :
    enqueueAll p (x :: xs) q vis =
      enqueueAll p xs
        (q ++ [{ tubes := x.nextTubes, path := p ++ [x.moveDescription] }])
        (vis ++ [serializeTubes x.nextTubes]) := by
  unfold enqueueAll
  rw [List.foldl_cons]
  simp only [h, Bool.false_eq_true, if_false]

theorem enqueueAll_spec (p : List String) :
    ∀ (ns : List NextState) (q : List SearchNode) (vis : List String),
      (∀ w ∈ q, serializeTubes w.tubes ∈ vis) →
      (∀ str ∈ vis, str ∈ (enqueueAll p ns q vis).2) ∧
      (∃ newNodes, (enqueueAll p ns q vis).1 = q ++ newNodes ∧
        ∀ w ∈ newNodes, ∃ x ∈ ns,
          w = { tubes := x.nextTubes, path := p ++ [x.moveDescription] } ∧
          serializeTubes x.nextTubes ∉ vis) ∧
      (∀ w ∈ (enqueueAll p ns q vis).1,
        serializeTubes w.tubes ∈ (enqueueAll p ns q vis).2) ∧
      (∀ str ∈ (enqueueAll p ns q vis).2,
        str ∈ vis ∨ ∃ x ∈ ns, str = serializeTubes x.nextTubes) ∧
      (∀ x ∈ ns, serializeTubes x.nextTubes ∈ (enqueueAll p ns q vis).2) ∧
      (∀ x ∈ ns, serializeTubes x.nextTubes ∈ vis ∨
        ∃ w ∈ (enqueueAll p ns q vis).1,
          serializeTubes w.tubes = serializeTubes x.nextTubes) := by
  intro ns
  induction ns with
  | nil =>
    intro q vis hq
    refine ⟨fun str h => h, ⟨[], by simp [enqueueAll], by simp⟩, hq, fun str h => Or.inl h,
      by simp, by simp⟩
  | cons x xs ih =>
    intro q vis hq
    cases hmem : vis.contains (serializeTubes x.nextTubes) with
    | true =>
      rw [enqueueAll_cons_mem p x xs q vis hmem]
      obtain ⟨ih1, ⟨nn, hnn, hnnw⟩, ih3, ih4, ih5, ih6⟩ := ih q vis hq
      have hxin : serializeTubes x.nextTubes ∈ vis := by
        simpa using hmem
      refine ⟨ih1, ⟨nn, hnn, ?_⟩, ih3, ?_, ?_, ?_⟩
      · intro w hw
        obtain ⟨y, hy, hweq, hns⟩ := hnnw w hw
        exact ⟨y, List.mem_cons_of_mem x hy, hweq, hns⟩
      · intro str hstr
        rcases ih4 str hstr with h | ⟨y, hy, heq⟩
        · exact Or.inl h
        · exact Or.inr ⟨y, List.mem_cons_of_mem x hy, heq⟩
      · intro y hy
        rcases List.mem_cons.mp hy with rfl | hy
        · exact ih1 _ hxin
        · exact ih5 y hy
      · intro y hy
        rcases List.mem_cons.mp hy with rfl | hy
        · exact Or.inl hxin
        · exact ih6 y hy
    | false =>
      rw [enqueueAll_cons_new p x xs q vis hmem]
      have hxnot : serializeTubes x.nextTubes ∉ vis := by
        intro hc
        have hct : vis.contains (serializeTubes x.nextTubes) = true := by simpa using hc
        rw [hmem] at hct
        exact Bool.noConfusion hct
      set nodex : SearchNode :=
        { tubes := x.nextTubes, path := p ++ [x.moveDescription] } with hnodex
      have hq2 : ∀ w ∈ q ++ [nodex],
          serializeTubes w.tubes ∈ vis ++ [serializeTubes x.nextTubes] := by
        intro w hw
        rcases List.mem_append.mp hw with hw | hw
        · exact List.mem_append_left _ (hq w hw)
        · rw [List.mem_singleton.mp hw]
          exact List.mem_append_right _ (List.mem_singleton.mpr rfl)
      obtain ⟨ih1, ⟨nn, hnn, hnnw⟩, ih3, ih4, ih5, ih6⟩ :=
        ih (q ++ [nodex]) (vis ++ [serializeTubes x.nextTubes]) hq2
      refine ⟨?_, ⟨nodex :: nn, ?_, ?_⟩, ih3, ?_, ?_, ?_⟩
      · intro str hstr
        exact ih1 str (List.mem_append_left _ hstr)
      · rw [hnn, List.append_assoc]
        rfl
      · intro w hw
        rcases List.mem_cons.mp hw with rfl | hw
        · exact ⟨x, List.mem_cons_self x xs, rfl, hxnot⟩
        · obtain ⟨y, hy, hweq, hns⟩ := hnnw w hw
          refine ⟨y, List.mem_cons_of_mem x hy, hweq, fun hc => hns (List.mem_append_left _ hc)⟩
      · intro str hstr
        rcases ih4 str hstr with h | ⟨y, hy, heq⟩
        · rcases List.mem_append.mp h with h | h
          · exact Or.inl h
          · exact Or.inr ⟨x, List.mem_cons_self x xs, List.mem_singleton.mp h⟩
        · exact Or.inr ⟨y, List.mem_cons_of_mem x hy, heq⟩
      · intro y hy
        rcases List.mem_cons.mp hy with rfl | hy
        · exact ih1 _ (List.mem_append_right _ (List.mem_singleton.mpr rfl))
        · exact ih5 y hy
      · intro y hy
        rcases List.mem_cons.mp hy with rfl | hy
        · refine Or.inr ⟨nodex, ?_, rfl⟩
          rw [hnn]
          exact List.mem_append_left _ (List.mem_append_right _ (List.mem_singleton.mpr rfl))
        · rcases ih6 y hy with h | ⟨w, hw, heq⟩
          · rcases List.mem_append.mp h with h | h
            · exact Or.inl h
            · refine Or.inr ⟨nodex, ?_, (List.mem_singleton.mp h).symm⟩
              rw [hnn]
              exact List.mem_append_left _ (List.mem_append_right _ (List.mem_singleton.mpr rfl))
          · exact Or.inr ⟨w, hw, heq⟩

/-- Coverage: while the invariant holds, every board reachable from a
visited board is itself visited or reachable from a queued node within the
same total depth. -/
theorem coverage (maxBalls : Nat) (s0 : Board) (hWF0 : WFBoard s0 s0)
    (queue : List SearchNode) (visited : List String)
    (hinv : Inv maxBalls s0 queue visited) :
    ∀ (m : Nat) (u t : Board) (D : Nat), serializeTubes u ∈ visited →
      ReachN maxBalls m u t → ReachN maxBalls D s0 u →
      serializeTubes t ∈ visited ∨
      ∃ w ∈ queue, ∃ m', ReachN maxBalls m' w.tubes t ∧
        w.path.length + m' ≤ D + m := by
  intro m
  induction m with
  | zero =>
    intro u t D hu hut hD
    rw [reachN_zero] at hut
    subst hut
    exact Or.inl hu
  | succ m ih =>
    intro u t D hu hut hD
    obtain ⟨x, hx, hxt⟩ := hut
    obtain ⟨hs0v, hqv, hpair, hspread, hopt, hvis⟩ := hinv
    have hWFu : WFBoard s0 u := reach_WF maxBalls s0 D s0 u hWF0 hD
    rcases hvis _ hu with ⟨w, hw, hser⟩ | ⟨t', hser', ⟨n', hreach'⟩, hnsolved, hsuccs⟩
    · have hWFw : WFBoard s0 w.tubes :=
        reach_WF maxBalls s0 w.path.length s0 w.tubes hWF0 (hqv w hw).1
      have hwu : w.tubes = u := serialize_inj_WF s0 w.tubes u hWFw hWFu hser
      refine Or.inr ⟨w, hw, m + 1, ?_, ?_⟩
      · rw [hwu]
        exact ⟨x, hx, hxt⟩
      · have := hopt w hw D (by rw [hwu]; exact hD)
        omega
    · have hWFt' : WFBoard s0 t' := reach_WF maxBalls s0 n' s0 t' hWF0 hreach'
      have ht'u : t' = u := serialize_inj_WF s0 t' u hWFt' hWFu hser'
      subst ht'u
      have hD1 : ReachN maxBalls (D + 1) s0 x := reachN_snoc maxBalls D s0 t' x hD hx
      rcases ih x t (D + 1) (hsuccs x hx) hxt hD1 with h | ⟨w, hw, m', hr, hb⟩
      · exact Or.inl h
      · exact Or.inr ⟨w, hw, m', hr, by omega⟩

/-- When the head of the queue is solved, its path length is minimal among
all pruned paths from the start to any solved board. -/
theorem front_minimal (maxBalls : Nat) (s0 : Board) (hWF0 : WFBoard s0 s0)
    (v : SearchNode) (rest : List SearchNode) (visited : List String)
    (hinv : Inv maxBalls s0 (v :: rest) visited) :
    ∀ (n : Nat) (t : Board), ReachN maxBalls n s0 t → isSolved t maxBalls = true →
      v.path.length ≤ n := by
  intro n t hreach hsolved
  obtain ⟨hs0v, hqv, hpair, hspread, hopt, hvis⟩ := hinv
  have hfront : ∀ w ∈ v :: rest, v.path.length ≤ w.path.length := by
    intro w hw
    rcases List.mem_cons.mp hw with rfl | hw
    · exact le_refl _
    · exact (List.pairwise_cons.mp hpair).1 w hw
  rcases coverage maxBalls s0 hWF0 (v :: rest) visited
      ⟨hs0v, hqv, hpair, hspread, hopt, hvis⟩ n s0 t 0 hs0v hreach rfl with
    hvist | ⟨w, hw, m', hr, hb⟩
  · rcases hvis _ hvist with ⟨w, hw, hser⟩ | ⟨t', hser', ⟨n', hreach'⟩, hnsolved, -⟩
    · have hWFt : WFBoard s0 t := reach_WF maxBalls s0 n s0 t hWF0 hreach
      have hWFw : WFBoard s0 w.tubes :=
        reach_WF maxBalls s0 w.path.length s0 w.tubes hWF0 (hqv w hw).1
      have hwt : w.tubes = t := serialize_inj_WF s0 w.tubes t hWFw hWFt hser
      have hle := hopt w hw n (by rw [hwt]; exact hreach)
      have := hfront w hw
      omega
    · have hWFt : WFBoard s0 t := reach_WF maxBalls s0 n s0 t hWF0 hreach
      have hWFt' : WFBoard s0 t' := reach_WF maxBalls s0 n' s0 t' hWF0 hreach'
      have ht't : t' = t := serialize_inj_WF s0 t' t hWFt' hWFt hser'
      rw [ht't, hsolved] at hnsolved
      exact Bool.noConfusion hnsolved
  · have := hfront w hw
    omega

/-- Expanding the unsolved head of the queue preserves the search invariant. -/
theorem inv_preserved (maxBalls : Nat) (s0 : Board) (hWF0 : WFBoard s0 s0)
    (v : SearchNode) (rest : List SearchNode) (visited : List String)
    (hinv : Inv maxBalls s0 (v :: rest) visited)
    (hunsolved : isSolved v.tubes maxBalls = false) :
    Inv maxBalls s0
      (enqueueAll v.path (getNextStates v.tubes maxBalls) rest visited).1
      (enqueueAll v.path (getNextStates v.tubes maxBalls) rest visited).2 := by
  obtain ⟨hs0v, hqv, hpair, hspread, hopt, hvis⟩ := hinv
  have hqrest : ∀ w ∈ rest, serializeTubes w.tubes ∈ visited :=
    fun w hw => (hqv w (List.mem_cons_of_mem v hw)).2
  obtain ⟨s1, ⟨nn, hQ, hnnw⟩, s3, s4, s5, s6⟩ :=
    enqueueAll_spec v.path (getNextStates v.tubes maxBalls) rest visited hqrest
  have hvreach := (hqv v (List.mem_cons_self _ _)).1
  have hvfront : ∀ w ∈ v :: rest, v.path.length ≤ w.path.length := by
    intro w hw
    rcases List.mem_cons.mp hw with rfl | hw
    · exact le_refl _
    · exact (List.pairwise_cons.mp hpair).1 w hw
  have hnewlen : ∀ w ∈ nn, w.path.length = v.path.length + 1 := by
    intro w hw
    obtain ⟨x, hx, rfl, -⟩ := hnnw w hw
    simp
  have hnewreach : ∀ w ∈ nn, ReachN maxBalls w.path.length s0 w.tubes := by
    intro w hw
    obtain ⟨x, hx, rfl, -⟩ := hnnw w hw
    have hxs : x.nextTubes ∈ succBoards maxBalls v.tubes :=
      List.mem_map_of_mem _ hx
    have := reachN_snoc maxBalls v.path.length s0 v.tubes x.nextTubes hvreach hxs
    simpa using this
  have holdvis : ∀ str ∈ visited,
      (∃ w ∈ (enqueueAll v.path (getNextStates v.tubes maxBalls) rest visited).1,
        serializeTubes w.tubes = str) ∨
      (∃ t, serializeTubes t = str ∧ (∃ n, ReachN maxBalls n s0 t) ∧
        isSolved t maxBalls = false ∧
        ∀ u ∈ succBoards maxBalls t,
          serializeTubes u ∈ (enqueueAll v.path (getNextStates v.tubes maxBalls) rest visited).2) := by
    intro str hold
    rcases hvis str hold with ⟨w, hw, hser⟩ | ⟨t, hser, hreach, hnsolved, hsuccs⟩
    · rcases List.mem_cons.mp hw with rfl | hwrest
      · refine Or.inr ⟨w.tubes, hser, ⟨w.path.length, hvreach⟩, hunsolved, ?_⟩
        intro u hu
        obtain ⟨x, hx, rfl⟩ := List.mem_map.mp hu
        exact s5 x hx
      · exact Or.inl ⟨w, by rw [hQ]; exact List.mem_append_left _ hwrest, hser⟩
    · exact Or.inr ⟨t, hser, hreach, hnsolved, fun u hu => s1 _ (hsuccs u hu)⟩
  refine ⟨s1 _ hs0v, ?_, ?_, ?_, ?_, ?_⟩
  · intro w hw
    rw [hQ] at hw
    rcases List.mem_append.mp hw with hw | hw
    · exact ⟨(hqv w (List.mem_cons_of_mem v hw)).1,
        s1 _ (hqv w (List.mem_cons_of_mem v hw)).2⟩
    · refine ⟨hnewreach w hw, s3 w ?_⟩
      rw [hQ]
      exact List.mem_append_right _ hw
  · rw [hQ, List.pairwise_append]
    refine ⟨(List.pairwise_cons.mp hpair).2, ?_, ?_⟩
    · refine List.pairwise_of_forall_mem_list ?_
      intro a ha b hb
      rw [hnewlen a ha, hnewlen b hb]
    · intro a ha b hb
      have h1 : a.path.length ≤ v.path.length + 1 :=
        hspread a (List.mem_cons_of_mem v ha) v (List.mem_cons_self _ _)
      rw [hnewlen b hb]
      exact h1
  · intro a ha b hb
    rw [hQ] at ha hb
    rcases List.mem_append.mp ha with ha | ha <;> rcases List.mem_append.mp hb with hb | hb
    · exact hspread a (List.mem_cons_of_mem v ha) b (List.mem_cons_of_mem v hb)
    · rw [hnewlen b hb]
      have := hspread a (List.mem_cons_of_mem v ha) v (List.mem_cons_self _ _)
      omega
    · rw [hnewlen a ha]
      have := hvfront b (List.mem_cons_of_mem v hb)
      omega
    · rw [hnewlen a ha, hnewlen b hb]
      omega
  · intro w hw n hreach
    rw [hQ] at hw
    rcases List.mem_append.mp hw with hw | hw
    · exact hopt w (List.mem_cons_of_mem v hw) n hreach
    · obtain ⟨x, hx, hweq, hnotvis⟩ := hnnw w hw
      by_contra hlt
      push_neg at hlt
      have hwl : w.path.length = v.path.length + 1 := hnewlen w hw
      have hn : n ≤ v.path.length := by omega
      rcases coverage maxBalls s0 hWF0 (v :: rest) visited
          ⟨hs0v, hqv, hpair, hspread, hopt, hvis⟩ n s0 w.tubes 0 hs0v hreach rfl with
        hvist | ⟨w2, hw2, m', hr', hb'⟩
      · have hxv : serializeTubes x.nextTubes ∈ visited := by
          rw [hweq] at hvist
          exact hvist
        exact hnotvis hxv
      · have hfront2 := hvfront w2 hw2
        have hm0 : m' = 0 := by omega
        subst hm0
        rw [reachN_zero] at hr'
        have hv2 : serializeTubes w2.tubes ∈ visited := (hqv w2 hw2).2
        rw [← hr'] at hv2
        have hxv : serializeTubes x.nextTubes ∈ visited := by
          rw [hweq] at hv2
          exact hv2
        exact hnotvis hxv
  · intro str hstr
    rcases s4 str hstr with hold | ⟨x, hx, rfl⟩
    · exact holdvis str hold
    · rcases s6 x hx with hin | ⟨w, hw, hser⟩
      · exact holdvis _ hin
      · exact Or.inl ⟨w, hw, hser⟩

/-- Soundness and optimality of the loop: whenever the loop answers
solvable, the returned path length is realized by a pruned path to a solved
board and is minimal among all pruned paths to solved boards. -/
theorem bfsLoop_optimal (maxBalls maxMoves timeLimit : Nat) (elapsed : Nat → Nat)
    (s0 : Board) (hWF0 : WFBoard s0 s0) :
    ∀ (fuel : Nat) (queue : List SearchNode) (visited : List String)
      (moveCount maxQueueSize : Nat) (history : List Nat),
      Inv maxBalls s0 queue visited →
      (bfsLoop maxBalls maxMoves timeLimit elapsed fuel queue visited moveCount
          maxQueueSize history).solvable = true →
      (∃ t, ReachN maxBalls
          (bfsLoop maxBalls maxMoves timeLimit elapsed fuel queue visited moveCount
            maxQueueSize history).moves.length s0 t ∧
          isSolved t maxBalls = true) ∧
      (∀ (n : Nat) (t : Board), ReachN maxBalls n s0 t → isSolved t maxBalls = true →
        (bfsLoop maxBalls maxMoves timeLimit elapsed fuel queue visited moveCount
          maxQueueSize history).moves.length ≤ n) := by
  intro fuel
  induction fuel with
  | zero =>
    intro queue visited moveCount maxQueueSize history hinv hsolv
    rw [bfsLoop_zero] at hsolv
    exact absurd hsolv (by simp [bfsFailure])
  | succ fuel ih =>
    intro queue visited moveCount maxQueueSize history hinv hsolv
    cases queue with
    | nil =>
      rw [bfsLoop_nil] at hsolv
      exact absurd hsolv (by simp [bfsFailure])
    | cons v rest =>
      by_cases htime : timeLimit < elapsed moveCount
      · rw [bfsLoop_cons_time _ _ _ _ _ _ _ _ _ _ _ htime] at hsolv
        exact absurd hsolv (by simp [bfsFailure])
      · cases hsol : isSolved v.tubes maxBalls with
        | true =>
          rw [bfsLoop_cons_solved _ _ _ _ _ _ _ _ _ _ _ htime hsol]
          refine ⟨⟨v.tubes, ?_, hsol⟩, ?_⟩
          · exact (hinv.2.1 v (List.mem_cons_self _ _)).1
          · intro n t hreach hsolved
            exact front_minimal maxBalls s0 hWF0 v rest visited hinv n t hreach hsolved
        | false =>
          rw [bfsLoop_cons_step _ _ _ _ _ _ _ _ _ _ _ htime hsol] at hsolv ⊢
          exact ih _ _ _ _ _ (inv_preserved maxBalls s0 hWF0 v rest visited hinv hsol) hsolv

/-- C1 amended: whenever the solver reports solvable, the returned moves
list has the minimum length over all sequences of solver-generated (pruned)
moves transforming the board into a solved board, and that length is
realized by such a sequence. With pruning disabled moves this bound does not
extend to all legal sequences, as the counterexample shows. -/
theorem solver_path_minimal_over_generated_moves
    (initialTubes : Board) (maxBalls maxMoves timeLimit : Nat) (elapsed : Nat → Nat)
    (hsolv : (solvePuzzleBFS initialTubes maxBalls maxMoves timeLimit elapsed).solvable = true) :
    (∃ t, ReachN maxBalls
        (solvePuzzleBFS initialTubes maxBalls maxMoves timeLimit elapsed).moves.length
        initialTubes t ∧ isSolved t maxBalls = true) ∧
    (∀ (n : Nat) (t : Board), ReachN maxBalls n initialTubes t →
      isSolved t maxBalls = true →
      (solvePuzzleBFS initialTubes maxBalls maxMoves timeLimit elapsed).moves.length ≤ n) := by
  cases hval : (validatePuzzle initialTubes maxBalls).valid with
  | false =>
    unfold solvePuzzleBFS at hsolv
    simp only [hval, Bool.not_false, if_true] at hsolv
    exact Bool.noConfusion hsolv
  | true =>
    have hWF0 := valid_WF initialTubes maxBalls hval
    have hinv : Inv maxBalls initialTubes
        [{ tubes := initialTubes, path := [] }] [serializeTubes initialTubes] := by
      refine ⟨List.mem_singleton.mpr rfl, ?_, ?_, ?_, ?_, ?_⟩
      · intro w hw
        rw [List.mem_singleton.mp hw]
        exact ⟨rfl, List.mem_singleton.mpr rfl⟩
      · simp
      · intro a ha b hb
        rw [List.mem_singleton.mp ha, List.mem_singleton.mp hb]
        simp
      · intro w hw n hreach
        rw [List.mem_singleton.mp hw]
        simp
      · intro str hstr
        exact Or.inl ⟨{ tubes := initialTubes, path := [] }, List.mem_singleton.mpr rfl,
          (List.mem_singleton.mp hstr).symm⟩
    unfold solvePuzzleBFS at hsolv ⊢
    simp only [hval, Bool.not_true, Bool.false_eq_true, if_false] at hsolv ⊢
    exact bfsLoop_optimal maxBalls maxMoves timeLimit elapsed initialTubes hWF0
      maxMoves _ _ 0 1 [] hinv hsolv

/-- Witness for the amended C1 on a solved one-tube puzzle: the solver
answers solvable with zero moves, realized and minimal over pruned paths. -/
theorem solver_path_minimal_over_generated_moves_witness :
    (solvePuzzleBFS [["RD"]] 1 10 600000 (fun _ => 0)).solvable = true ∧
    ((∃ t, ReachN 1
        (solvePuzzleBFS [["RD"]] 1 10 600000 (fun _ => 0)).moves.length [["RD"]] t ∧
        isSolved t 1 = true) ∧
     (∀ (n : Nat) (t : Board), ReachN 1 n [["RD"]] t → isSolved t 1 = true →
        (solvePuzzleBFS [["RD"]] 1 10 600000 (fun _ => 0)).moves.length ≤ n)) :=
  ⟨by decide,
   solver_path_minimal_over_generated_moves [["RD"]] 1 10 600000 (fun _ => 0) (by decide)⟩

end BallSort
